import Mathlib

/-!
Verification of `registrar/apps/core/utils.py`.

The module has two independent parts:
  * a permission resolver (`get_user_api_permissions`,
    `get_effective_user_program_api_permissions`,
    `_remove_permissions_if_enrollments_disabled`), and
  * a CSV loader/serializer (`serialize_to_csv`,
    `StrippedLowercaseFieldNamesDictReader`, `load_records_from_csv`).

The embedding below translates the Python source into executable Lean
definitions.  External collaborators (the guardian permission store, the
`DB_TO_API_PERMISSION_MAPPING` table and `ENROLLMENT_PERMISSIONS_LIST`
constant, which live outside the packaged sources) are modelled as
parameters, exactly as the spec describes them: an arbitrary
identifier-to-APIPermission mapping and an arbitrary list of
enrollment-related API permissions.

The CSV part embeds the relevant fragment of Python's `csv` module
(dialect `excel`: delimiter `,`, quote `"`, doubled quotes, non-strict,
line terminator CRLF, minimal quoting) together with `str.splitlines`,
`str.strip` and `str.lower`, restricted to the character classes those
functions use (`str.strip`/`str.lower` are modelled on the ASCII/Latin-1
range plus the common Unicode space characters; every claim only involves
such characters).
-/

namespace Registrar

/-! ## Python string primitives -/

/-- Characters treated as whitespace by Python's `str.strip()`
(ASCII/Latin-1 whitespace plus the common Unicode space characters). -/
def pyIsSpace (c : Char) : Bool :=
  c = ' ' || c = '\t' || c = '\n' || c = '\r' || c = '\x0b' || c = '\x0c' ||
  c = '\x1c' || c = '\x1d' || c = '\x1e' || c = '\x1f' || c = '\x85' ||
  c = '\xa0' || c = '\u2028' || c = '\u2029' || c = '\u3000'

/-- Model of Python's `str.strip()`: drop leading and trailing whitespace. -/
def pyStrip (s : String) : String :=
  String.mk (((s.data.dropWhile pyIsSpace).reverse.dropWhile pyIsSpace).reverse)

/-- Model of Python's `str.lower()` (ASCII case folding). -/
def pyLower (s : String) : String :=
  String.mk (s.data.map Char.toLower)

/-- Characters on which Python's `str.splitlines()` breaks lines. -/
def isLineBreak (c : Char) : Bool :=
  c = '\n' || c = '\r' || c = '\x0b' || c = '\x0c' || c = '\x1c' ||
  c = '\x1d' || c = '\x1e' || c = '\x85' || c = '\u2028' || c = '\u2029'

/-- Worker for `pySplitlines`; `acc` holds the current line reversed. -/
def splitLinesAux : List Char → List Char → List String
  | [], acc => if acc.isEmpty then [] else [String.mk acc.reverse]
  | '\r' :: '\n' :: rest, acc => String.mk acc.reverse :: splitLinesAux rest []
  | c :: rest, acc =>
      if isLineBreak c then String.mk acc.reverse :: splitLinesAux rest []
      else splitLinesAux rest (c :: acc)

/-- Model of Python's `str.splitlines()` (a `"\r\n"` pair is one break; a
trailing break does not produce a final empty line). -/
def pySplitlines (s : String) : List String :=
  splitLinesAux s.data []

/-! ## Permission resolver

`get_user_api_permissions` consults two external collaborators:
`guardian.shortcuts.get_perms(user, obj)` (object-scoped permission
identifiers) and `user.get_all_permissions()` (global permission
identifiers).  A user is modelled by those two query results.  The static
table `DB_TO_API_PERMISSION_MAPPING` is modelled as a partial map from
identifiers to API permissions (`db_perm in MAPPING` is `(mapping
db_perm).isSome`, `MAPPING[db_perm]` its value), and
`ENROLLMENT_PERMISSIONS_LIST` as a list of API permissions. -/

/-- A user, as seen by the permission resolver: the results of
`get_perms(user, obj)` for each object and of `user.get_all_permissions()`. -/
structure PUser (Obj : Type) where
  objPerms : Obj → List String
  globalPerms : List String

/-- A program: it is itself a permission target and exposes
`managing_organization` and `is_enrollment_enabled`. -/
structure Program (Obj : Type) where
  self : Obj
  managing_organization : Obj
  is_enrollment_enabled : Bool

/-- The list `user_object_permissions + user_global_permissions` the
resolver iterates over (`get_perms(user, obj) if obj is not None else []`,
then the user's global permissions). -/
def collectedPerms {Obj : Type} (user : PUser Obj) (obj : Option Obj) : List String :=
  (match obj with
   | some o => user.objPerms o
   | none => []) ++ user.globalPerms

/-- Embedding of `get_user_api_permissions(user, obj=None)`: translate
every collected identifier that is a key of the mapping, silently dropping
the rest, and return the resulting set. -/
def get_user_api_permissions {Obj : Type} (mapping : String → Option String)
    (user : PUser Obj) (obj : Option Obj) : Finset String :=
  ((collectedPerms user obj).filterMap mapping).toFinset

/-- Embedding of `_remove_permissions_if_enrollments_disabled(program,
user_permissions)`. -/
def remove_permissions_if_enrollments_disabled {Obj : Type}
    (enrollmentPermissionsList : List String) (program : Program Obj)
    (userPermissions : Finset String) : Finset String :=
  if !program.is_enrollment_enabled then
    userPermissions \ enrollmentPermissionsList.toFinset
  else
    userPermissions

/-- Embedding of `get_effective_user_program_api_permissions(user, program)`. -/
def get_effective_user_program_api_permissions {Obj : Type}
    (mapping : String → Option String) (enrollmentPermissionsList : List String)
    (user : PUser Obj) (program : Program Obj) : Finset String :=
  remove_permissions_if_enrollments_disabled enrollmentPermissionsList program
    ((get_user_api_permissions mapping user (some program.self)) ∪
      (get_user_api_permissions mapping user (some program.managing_organization)))

/-! ## CSV record parser

Embedding of the fragment of `csv.reader` reachable from
`load_records_from_csv`: dialect `excel` (delimiter `,`, quote char `"`,
doubled quotes, non-strict), fed the list `csv_string.splitlines()` of
terminator-less lines.  A quoted field that spans lines therefore
continues on the next line with nothing inserted at the boundary (the
line terminator was consumed by `splitlines`). -/

/-- Parser states of the csv reader's field machine. -/
inductive PState : Type
  | startField
  | inField
  | inQuoted
  | quoteInQuoted
deriving DecidableEq, Repr

/-- One step of the csv field machine.  The current field is accumulated
in reverse in `f`; completed fields of the current record are accumulated
in reverse in `r`. -/
def stepChar : PState × List Char × List String → Char → PState × List Char × List String
  | (.startField, f, r), c =>
      if c = '"' then (.inQuoted, f, r)
      else if c = ',' then (.startField, [], String.mk f.reverse :: r)
      else (.inField, c :: f, r)
  | (.inField, f, r), c =>
      if c = ',' then (.startField, [], String.mk f.reverse :: r)
      else (.inField, c :: f, r)
  | (.inQuoted, f, r), c =>
      if c = '"' then (.quoteInQuoted, f, r) else (.inQuoted, c :: f, r)
  | (.quoteInQuoted, f, r), c =>
      if c = '"' then (.inQuoted, '"' :: f, r)
      else if c = ',' then (.startField, [], String.mk f.reverse :: r)
      else (.inField, c :: f, r)

/-- Run the field machine over the characters of one line. -/
def runLine (st : PState × List Char × List String) : List Char → PState × List Char × List String
  | [] => st
  | c :: cs => runLine (stepChar st c) cs

/-- Finish a record: the pending field is appended and the accumulated
record is reversed into file order. -/
def endRecord (f : List Char) (r : List String) : List String :=
  (String.mk f.reverse :: r).reverse

/-- Worker for `parseRecords`.  `cont = some (f, r)` means a record is in
progress (the previous line ended inside a quoted field). -/
def parseRecordsAux : Option (List Char × List String) → List String → List (List String)
  | none, [] => []
  | some (f, r), [] => [endRecord f r]
  | cont, line :: rest =>
      let st0 : PState × List Char × List String :=
        match cont with
        | none => (.startField, [], [])
        | some (f, r) => (.inQuoted, f, r)
      let st1 := runLine st0 line.data
      match st1 with
      | (.inQuoted, f1, r1) => parseRecordsAux (some (f1, r1)) rest
      | (s1, f1, r1) =>
          if s1 = .startField && f1.isEmpty && r1.isEmpty && cont.isNone then
            [] :: parseRecordsAux none rest
          else
            endRecord f1 r1 :: parseRecordsAux none rest

/-- All records produced by `csv.reader` from a list of terminator-less
lines. -/
def parseRecords (lines : List String) : List (List String) :=
  parseRecordsAux none lines

/-! ## DictReader row dictionaries

`csv.DictReader.__next__` builds `dict(zip(fieldnames, row))`, stores
overflow cells under the key `None` (`restkey`) and pads missing cells
with the value `None` (`restval`).  A row dictionary is an association
list with unique keys in insertion order plus a flag recording whether
the `None` restkey is present. -/

/-- Python dict entries: string keys, values either a string or Python's
`None`. -/
abbrev DictEntries := List (String × Option String)

/-- Python dict assignment `d[k] = v`: update in place if the key exists,
else append. -/
def dictSet (d : DictEntries) (k : String) (v : Option String) : DictEntries :=
  if d.any (fun p => p.1 = k) then
    d.map (fun p => if p.1 = k then (k, v) else p)
  else
    d ++ [(k, v)]

/-- A `DictReader` row: the dict entries and whether the `None` restkey
is present (overflow cells). -/
structure RowDict where
  entries : DictEntries
  hasRest : Bool
deriving DecidableEq, Repr

/-- Build the row dictionary for one data record, as
`csv.DictReader.__next__` does. -/
def mkRowDict (fns : List String) (cells : List String) : RowDict :=
  let base : DictEntries :=
    (fns.zip cells).foldl (fun d kv => dictSet d kv.1 (some kv.2)) []
  if fns.length < cells.length then
    ⟨base, true⟩
  else
    ⟨(fns.drop cells.length).foldl (fun d k => dictSet d k none) base, false⟩

/-! ## load_records_from_csv -/

/-- The faults `load_records_from_csv` can produce.  `missingHeaders` and
`missingData` are the two `ValidationError`s; their payloads are exactly
the data interpolated into the error message ("CSV is missing headers
[...]" lists the missing header names; "CSV is missing data at row #n.
Required fields are [...]" names the row number and the joined field
list).  `attributeError` is the generic `AttributeError` raised by
`None.strip()`, `keyError` the generic `KeyError` of a dict lookup, and
`typeError` the generic `TypeError` raised when the header-normalization
list comprehension iterates over an absent (`None`) header row. -/
inductive LoadError : Type
  | missingHeaders (missing : List String)
  | missingData (rowNum : Nat) (fields : List String)
  | attributeError
  | keyError
  | typeError
deriving DecidableEq, Repr

/-- Python truthiness of a row value: `None` and `""` are falsy. -/
def truthy : Option String → Bool
  | none => false
  | some s => !(s == "")

/-- Outcome of evaluating `all(row[field] for field in required_fields)`:
it passes, stops at a falsy value, or raises `KeyError` on a missing key
(evaluated left to right, as the generator does). -/
inductive RowCheck : Type
  | ok
  | falsy
  | missingKey
deriving DecidableEq, Repr

/-- Evaluate `all(row[field] for field in required_fields)`. -/
def checkRequired : List String → DictEntries → RowCheck
  | [], _ => .ok
  | f :: fs, entries =>
      match entries.lookup f with
      | none => .missingKey
      | some v => if truthy v then checkRequired fs entries else .falsy

/-- The dict comprehension `{field: val.strip() for field, val in
row.items() if field in field_names}`.  Calling `.strip()` on a `None`
value raises `AttributeError` at the first such kept entry. -/
def stripRow (fieldNames : List String) : DictEntries → Except LoadError (List (String × String))
  | [] => .ok []
  | (k, none) :: rest =>
      if k ∈ fieldNames then .error .attributeError else stripRow fieldNames rest
  | (k, some s) :: rest =>
      if k ∈ fieldNames then (stripRow fieldNames rest).map (fun r => (k, pyStrip s) :: r)
      else stripRow fieldNames rest

/-- Process one data row (the body of the `for n, row in enumerate(reader, 1)`
loop): check the restkey, check required-field truthiness, then strip and
project the row. -/
def processRow (fieldNames required fns : List String) (cells : List String)
    (n : Nat) : Except LoadError (List (String × String)) :=
  if (mkRowDict fns cells).hasRest then .error (.missingData n fieldNames)
  else
    match checkRequired required (mkRowDict fns cells).entries with
    | .missingKey => .error .keyError
    | .falsy => .error (.missingData n fieldNames)
    | .ok => stripRow fieldNames (mkRowDict fns cells).entries

/-- Iterate the data rows, 1-indexed, failing fast on the first bad row. -/
def processRows (fieldNames required fns : List String) :
    List (List String) → Nat → Except LoadError (List (List (String × String)))
  | [], _ => .ok []
  | cells :: rest, n =>
      match processRow fieldNames required fns cells n with
      | .error e => .error e
      | .ok rec => (processRows fieldNames required fns rest (n + 1)).map (fun rs => rec :: rs)

/-- Normalization applied by `StrippedLowercaseFieldNamesDictReader` to
every raw header token: `field_name.strip().lower()`. -/
def normalizeHeader (h : String) : String :=
  pyLower (pyStrip h)

/-- The set difference `field_names - set(optional_fields)`. -/
def requiredOf (fieldNames optionalFields : List String) : List String :=
  fieldNames.filter (fun f => !optionalFields.contains f)

/-- Embedding of `load_records_from_csv(csv_string, field_names,
optional_fields)`.  `field_names` and `optional_fields` are Python sets,
modelled as duplicate-free lists; a record is the association list of a
Python dict in insertion order. -/
def load_records_from_csv (csvString : String) (fieldNames : List String)
    (optionalFields : List String) : Except LoadError (List (List (String × String))) :=
  match parseRecords (pySplitlines csvString) with
  | [] => .error .typeError
  | rawHeader :: dataRecs =>
      if ((requiredOf fieldNames optionalFields).filter
            (fun f => !(rawHeader.map normalizeHeader).contains f)).isEmpty then
        processRows fieldNames (requiredOf fieldNames optionalFields)
          (rawHeader.map normalizeHeader) (dataRecs.filter (fun r => !r.isEmpty)) 1
      else
        .error (.missingHeaders ((requiredOf fieldNames optionalFields).filter
          (fun f => !(rawHeader.map normalizeHeader).contains f)))

/-- The normalized header fields of a CSV text (empty if the text has no
records at all). -/
def headerFns (csvString : String) : List String :=
  match parseRecords (pySplitlines csvString) with
  | [] => []
  | rawHeader :: _ => rawHeader.map normalizeHeader

/-- The data rows a `DictReader` iterates over: every record after the
header record, blank records skipped. -/
def dataRows (csvString : String) : List (List String) :=
  match parseRecords (pySplitlines csvString) with
  | [] => []
  | _ :: dataRecs => dataRecs.filter (fun r => !r.isEmpty)

/-! ## serialize_to_csv

Embedding of `csv.DictWriter` with `extrasaction="ignore"`, default
`QUOTE_MINIMAL` quoting and CRLF line terminator.  Cell values reachable
from the repository are strings, booleans and `None`; `str()` renders
booleans as `True`/`False` and the writer renders `None` as the empty
string. -/

/-- A Python value stored in an item dict. -/
inductive PyVal : Type
  | str (s : String)
  | bool (b : Bool)
  | none
deriving DecidableEq, Repr

/-- Rendering of a cell value by the csv writer (`str()`, with `None`
written as nothing). -/
def pyStr : PyVal → String
  | .str s => s
  | .bool true => "True"
  | .bool false => "False"
  | .none => ""

/-- An item passed to `serialize_to_csv`: a Python dict. -/
abbrev Item := List (String × PyVal)

/-- QUOTE_MINIMAL: a field is quoted iff it contains the delimiter, the
quote char, or a character of the line terminator. -/
def needsQuote (c : Char) : Bool :=
  c = ',' || c = '"' || c = '\r' || c = '\n'

/-- Double every quote character (the writer's `doublequote` escaping). -/
def escapeQuotes (l : List Char) : List Char :=
  (l.map (fun c => if c = '"' then ['"', '"'] else [c])).flatten

/-- Render one cell. -/
def renderFieldChars (s : String) : List Char :=
  if s.data.any needsQuote then '"' :: (escapeQuotes s.data ++ ['"']) else s.data

/-- Join rendered cells with the delimiter. -/
def joinComma : List (List Char) → List Char
  | [] => []
  | [x] => x
  | x :: y :: rest => x ++ ',' :: joinComma (y :: rest)

/-- Render one row (without terminator).  A record consisting of a single
empty field is written as `""` so that it is not mistaken for a blank
line. -/
def renderRowChars (cells : List String) : List Char :=
  if cells = [""] then ['"', '"']
  else joinComma (cells.map renderFieldChars)

/-- The cell values `DictWriter.writerow(item)` emits:
`item.get(f, None)` rendered by `str` (or nothing for `None`), for each
requested field; extra keys are ignored. -/
def rowCells (fieldNames : List String) (item : Item) : List String :=
  fieldNames.map (fun f => pyStr ((item.lookup f).getD .none))

/-- Embedding of `serialize_to_csv(items, field_names, include_headers)`. -/
def serialize_to_csv (items : List Item) (fieldNames : List String)
    (includeHeaders : Bool) : String :=
  String.mk
    ((if includeHeaders then renderRowChars fieldNames ++ ['\r', '\n'] else []) ++
      (items.map (fun it => renderRowChars (rowCells fieldNames it) ++ ['\r', '\n'])).flatten)

/-! ## Claim theorems: permission resolver -/

/-- C1: for every user and program,
`get_effective_user_program_api_permissions(user, program)` equals
`get_user_api_permissions(user, program) ∪ get_user_api_permissions(user,
program.managing_organization)` when `program.is_enrollment_enabled` is
true, and equals that union minus the enrollment-permission constant set
when it is false. -/
theorem C1_effective_permissions {Obj : Type} (mapping : String → Option String)
    (enrollmentPermissionsList : List String) (user : PUser Obj) (program : Program Obj) :
    get_effective_user_program_api_permissions mapping enrollmentPermissionsList user program =
      (if program.is_enrollment_enabled then
        (get_user_api_permissions mapping user (some program.self)) ∪
          (get_user_api_permissions mapping user (some program.managing_organization))
      else
        ((get_user_api_permissions mapping user (some program.self)) ∪
          (get_user_api_permissions mapping user (some program.managing_organization))) \
          enrollmentPermissionsList.toFinset) := by
  unfold get_effective_user_program_api_permissions
    remove_permissions_if_enrollments_disabled
  cases h : program.is_enrollment_enabled <;> simp [h]

/-- C2: `get_user_api_permissions(user, obj)` is always a subset of the
range of the mapping table; a permission is in the result iff some
collected identifier (object-scoped plus global) maps to it, so unmapped
identifiers are silently dropped; and when no object is passed only the
global permissions are collected. -/
theorem C2_resolver_range {Obj : Type} (mapping : String → Option String)
    (user : PUser Obj) (obj : Option Obj) :
    (∀ p ∈ get_user_api_permissions mapping user obj, ∃ k, mapping k = some p) ∧
    (∀ p, p ∈ get_user_api_permissions mapping user obj ↔
      ∃ dbp ∈ collectedPerms user obj, mapping dbp = some p) ∧
    collectedPerms user (none : Option Obj) = user.globalPerms := by
  refine ⟨?_, ?_, rfl⟩
  · intro p hp
    rcases (List.mem_filterMap).1 ((List.mem_toFinset).1 hp) with ⟨k, _, hk⟩
    exact ⟨k, hk⟩
  · intro p
    simp [get_user_api_permissions, List.mem_filterMap]

/-! ## Claim theorems: CSV loader, concrete facts -/

/-- C10: loading the empty string (no header row at all) does not produce
either `ValidationError` (`missingHeaders` / `missingData`); the header
normalization comprehension iterates over the absent (`None`) header row
and the call fails with the generic `TypeError` fault, for every field
set. -/
theorem C10_empty_input (fieldNames optionalFields : List String) :
    load_records_from_csv "" fieldNames optionalFields = .error .typeError := rfl

/-- C3 counterexample: on input `"name\n "` with required field `name`, a
record list is returned although the required field's value in the
returned record is the empty string (the raw value `" "` is truthy when
checked but is stripped afterwards), refuting "every required field has a
non-empty value in every returned record". -/
theorem C3_counterexample :
    load_records_from_csv "name\n " ["name"] [] = .ok [[("name", "")]] ∧
    [("name", "")].lookup "name" = some "" := ⟨rfl, rfl⟩

/-- C4 counterexample: with `field_names = {name, phone}` and
`optional_fields = {phone}`, the row error on `"name,phone\n,x"` carries
the complete `field_names` list `[name, phone]`, not the required-field
list `field_names - optional_fields = [name]` the claim states. -/
theorem C4_counterexample :
    load_records_from_csv "name,phone\n,x" ["name", "phone"] ["phone"] =
      .error (.missingData 1 ["name", "phone"]) ∧
    requiredOf ["name", "phone"] ["phone"] = ["name"] ∧
    ("phone" ∈ ["name", "phone"] ∧ "phone" ∉ (["name"] : List String)) :=
  ⟨rfl, rfl, by decide, by decide⟩

/-- C5 counterexample: `"name,extra\nA"` has a ragged data row (one cell
against two headers, so the parser pads the column `extra` with the
missing-value marker), yet `load_records_from_csv` does not fail at all:
it returns a record list. -/
theorem C5_counterexample :
    dataRows "name,extra\nA" = [["A"]] ∧
    (headerFns "name,extra\nA").length = 2 ∧
    load_records_from_csv "name,extra\nA" ["name"] [] = .ok [[("name", "A")]] :=
  ⟨rfl, rfl, rfl⟩

/-- C6 counterexample: with `field_names = {name, phone}` and `phone`
optional but absent from the header, the returned record does not contain
`phone` as a key, refuting "every member of field_names is present as a
key". -/
theorem C6_counterexample :
    load_records_from_csv "name\nA" ["name", "phone"] ["phone"] = .ok [[("name", "A")]] ∧
    "phone" ∈ ["name", "phone"] ∧
    [("name", "A")].lookup "phone" = none := ⟨rfl, by decide, rfl⟩

/-- C8 counterexample: serializing the single record with the empty string
at field `name` and loading the result back does not reproduce the record:
the loader rejects the row with a `ValidationError`, because the empty
required value is falsy.  The round trip therefore fails for this list of
records over the field set `{name}`. -/
theorem C8_counterexample :
    serialize_to_csv [[("name", PyVal.str "")]] ["name"] true = "name\r\n\"\"\r\n" ∧
    load_records_from_csv "name\r\n\"\"\r\n" ["name"] [] =
      .error (.missingData 1 ["name"]) := ⟨rfl, rfl⟩

/-! ## Helper lemmas: Python strings -/

theorem pyStrip_data (s : String) :
    (pyStrip s).data = List.rdropWhile pyIsSpace (List.dropWhile pyIsSpace s.data) := rfl

/-- The model of `str.strip()` is idempotent: record values produced by
the loader carry no surrounding whitespace. -/
theorem pyStrip_pyStrip (s : String) : pyStrip (pyStrip s) = pyStrip s := by
  apply String.ext
  rw [pyStrip_data, pyStrip_data]
  set m := List.dropWhile pyIsSpace s.data with hm
  have hms : List.dropWhile pyIsSpace m = m := by
    rw [hm]; exact List.dropWhile_idempotent pyIsSpace s.data
  have h1 : List.dropWhile pyIsSpace (List.rdropWhile pyIsSpace m) =
      List.rdropWhile pyIsSpace m := by
    rcases List.rdropWhile_prefix pyIsSpace m with ⟨t, ht⟩
    cases e : List.rdropWhile pyIsSpace m with
    | nil => simp
    | cons a l2 =>
        have hma : m = a :: (l2 ++ t) := by rw [← ht, e]; simp
        have hpa : pyIsSpace a = false := by
          cases hx : pyIsSpace a
          · rfl
          · exfalso
            rw [hma, List.dropWhile_cons, hx] at hms
            simp only [eq_self_iff_true, if_true] at hms
            have hlen : (List.dropWhile pyIsSpace (l2 ++ t)).length = (l2 ++ t).length + 1 := by
              rw [hms]; simp
            have hle := ((List.dropWhile_suffix (l := l2 ++ t) pyIsSpace).sublist).length_le
            omega
        rw [List.dropWhile_cons, hpa]
        simp
  rw [h1, List.rdropWhile_idempotent]

/-! ## Helper lemmas: row dictionaries -/

/-- The keys of a dict, in insertion order. -/
def keysOf (d : DictEntries) : List String :=
  d.map Prod.fst

theorem dictSet_of_not_mem (d : DictEntries) (k : String) (v : Option String)
    (h : k ∉ keysOf d) : dictSet d k v = d ++ [(k, v)] := by
  have : d.any (fun p => p.1 = k) = false := by
    simp only [List.any_eq_false, decide_eq_true_eq]
    intro p hp hpk
    exact h (by simpa [keysOf, hpk] using List.mem_map_of_mem Prod.fst hp)
  simp [dictSet, this]

theorem keysOf_dictSet (d : DictEntries) (k : String) (v : Option String) :
    keysOf (dictSet d k v) = if k ∈ keysOf d then keysOf d else keysOf d ++ [k] := by
  by_cases h : k ∈ keysOf d
  · simp only [h, if_true]
    have hany : d.any (fun p => p.1 = k) = true := by
      rcases (List.mem_map).1 h with ⟨p, hp, hpk⟩
      exact List.any_eq_true.2 ⟨p, hp, by simpa using hpk⟩
    simp only [dictSet, hany, if_true]
    simp only [keysOf, List.map_map]
    apply List.map_congr_left
    intro p _
    by_cases hk : p.1 = k
    · simp [hk]
    · simp [hk]
  · simp only [h, if_false]
    rw [dictSet_of_not_mem d k v h]
    simp [keysOf]

theorem mem_dictSet (d : DictEntries) (k : String) (v : Option String) :
    ∀ kv ∈ dictSet d k v, kv ∈ d ∨ kv = (k, v) := by
  intro kv hkv
  unfold dictSet at hkv
  by_cases h : d.any (fun p => p.1 = k) = true
  · rw [if_pos h] at hkv
    rcases (List.mem_map).1 hkv with ⟨p, hp, hpe⟩
    by_cases hk : p.1 = k
    · right; rw [← hpe]; simp [hk]
    · left; rw [← hpe]; simpa [hk] using hp
  · rw [if_neg h] at hkv
    rcases List.mem_append.1 hkv with h1 | h1
    · exact Or.inl h1
    · exact Or.inr (by simpa using h1)

theorem keysOf_dictSet_nodup (d : DictEntries) (k : String) (v : Option String)
    (h : (keysOf d).Nodup) : (keysOf (dictSet d k v)).Nodup := by
  rw [keysOf_dictSet]
  by_cases hk : k ∈ keysOf d
  · simpa [hk] using h
  · rw [if_neg hk]
    refine List.nodup_append.2 ⟨h, List.nodup_singleton k, ?_⟩
    intro a ha hb
    rw [List.mem_singleton] at hb
    subst hb
    exact hk ha

theorem mem_keysOf_dictSet_left (d : DictEntries) (k k' : String) (v : Option String)
    (h : k' ∈ keysOf d) : k' ∈ keysOf (dictSet d k v) := by
  rw [keysOf_dictSet]
  by_cases hk : k ∈ keysOf d <;> simp [hk, h]

theorem mem_keysOf_dictSet_self (d : DictEntries) (k : String) (v : Option String) :
    k ∈ keysOf (dictSet d k v) := by
  rw [keysOf_dictSet]
  by_cases hk : k ∈ keysOf d <;> simp [hk]

/-- The key-value pairs `DictReader.__next__` inserts into a row dict, in
insertion order: zipped cells, then `restval` padding for headers without
a cell. -/
def rowPairs (fns cells : List String) : DictEntries :=
  (fns.zip cells).map (fun kv => (kv.1, some kv.2)) ++
    (fns.drop cells.length).map (fun k => (k, (none : Option String)))

/-- Insert a list of pairs into a dict by repeated assignment. -/
def dictInsertAll (d : DictEntries) (ps : DictEntries) : DictEntries :=
  ps.foldl (fun d kv => dictSet d kv.1 kv.2) d

theorem mkRowDict_entries_eq (fns cells : List String) :
    (mkRowDict fns cells).entries = dictInsertAll [] (rowPairs fns cells) := by
  unfold mkRowDict dictInsertAll rowPairs
  by_cases h : fns.length < cells.length
  · have hdrop : fns.drop cells.length = [] :=
      List.drop_eq_nil_of_le (Nat.le_of_lt h)
    simp only [h, if_true, hdrop, List.map_nil, List.append_nil, List.foldl_map]
  · simp only [h, if_false, List.foldl_append, List.foldl_map]

theorem mkRowDict_hasRest (fns cells : List String) :
    (mkRowDict fns cells).hasRest = decide (fns.length < cells.length) := by
  unfold mkRowDict
  by_cases h : fns.length < cells.length <;> simp [h]

theorem zip_map_fst (fns : List String) : ∀ cells : List String,
    (fns.zip cells).map Prod.fst = fns.take cells.length := by
  induction fns with
  | nil => intro cells; simp
  | cons a t ih =>
      intro cells
      cases cells with
      | nil => simp
      | cons c cs => simp [ih cs]

theorem rowPairs_keys (fns cells : List String) :
    keysOf (rowPairs fns cells) = fns := by
  unfold rowPairs keysOf
  rw [List.map_append, List.map_map, List.map_map]
  have h1 : (fns.zip cells).map (Prod.fst ∘ fun kv => (kv.1, some kv.2)) =
      fns.take cells.length := by
    rw [← zip_map_fst fns cells]
    rfl
  have h2 : (fns.drop cells.length).map (Prod.fst ∘ fun k => (k, (none : Option String))) =
      fns.drop cells.length := by
    have hid : (Prod.fst ∘ fun k : String => (k, (none : Option String))) = id :=
      funext fun k => rfl
    rw [hid, List.map_id]
  rw [h1, h2, List.take_append_drop]

theorem dictInsertAll_nodup (ps : DictEntries) : ∀ d : DictEntries,
    (keysOf d).Nodup → (keysOf (dictInsertAll d ps)).Nodup := by
  induction ps with
  | nil => intro d h; exact h
  | cons q qs ih =>
      intro d h
      exact ih (dictSet d q.1 q.2) (keysOf_dictSet_nodup d q.1 q.2 h)

theorem mem_dictInsertAll (ps : DictEntries) : ∀ d : DictEntries,
    ∀ kv ∈ dictInsertAll d ps, kv ∈ d ∨ kv ∈ ps := by
  induction ps with
  | nil => intro d kv h; exact Or.inl h
  | cons q qs ih =>
      intro d kv h
      rcases ih (dictSet d q.1 q.2) kv h with h1 | h1
      · rcases mem_dictSet d q.1 q.2 kv h1 with h2 | h2
        · exact Or.inl h2
        · right
          rw [h2]
          simp
      · right
        exact List.mem_cons_of_mem q h1

theorem key_mem_dictInsertAll (ps : DictEntries) : ∀ d : DictEntries, ∀ k : String,
    (k ∈ keysOf d ∨ k ∈ keysOf ps) → k ∈ keysOf (dictInsertAll d ps) := by
  induction ps with
  | nil =>
      intro d k h
      rcases h with h | h
      · exact h
      · simp [keysOf] at h
  | cons q qs ih =>
      intro d k h
      rcases h with h | h
      · exact ih (dictSet d q.1 q.2) k (Or.inl (mem_keysOf_dictSet_left d q.1 k q.2 h))
      · simp only [keysOf, List.map_cons, List.mem_cons] at h
        rcases h with h1 | h1
        · subst h1
          exact ih (dictSet d q.1 q.2) q.1 (Or.inl (mem_keysOf_dictSet_self d q.1 q.2))
        · exact ih (dictSet d q.1 q.2) k (Or.inr h1)

theorem dictInsertAll_fresh (ps : DictEntries) : ∀ d : DictEntries,
    (∀ q ∈ ps, q.1 ∉ keysOf d) → (ps.map Prod.fst).Nodup →
    dictInsertAll d ps = d ++ ps := by
  induction ps with
  | nil => intro d _ _; simp [dictInsertAll]
  | cons q qs ih =>
      intro d hfresh hnodup
      have hq : q.1 ∉ keysOf d := hfresh q (List.mem_cons_self q qs)
      have hstep : dictSet d q.1 q.2 = d ++ [(q.1, q.2)] := dictSet_of_not_mem d q.1 q.2 hq
      have heta : d ++ [(q.1, q.2)] = d ++ [q] := by simp
      have hrest : ∀ p ∈ qs, p.1 ∉ keysOf (d ++ [q]) := by
        intro p hp
        simp only [keysOf, List.map_append, List.mem_append]
        rintro (hc | hc)
        · exact hfresh p (List.mem_cons_of_mem q hp) hc
        · simp only [List.map_cons, List.map_nil, List.mem_singleton] at hc
          rw [List.map_cons] at hnodup
          have := (List.nodup_cons.1 hnodup).1
          exact this (hc ▸ List.mem_map_of_mem Prod.fst hp)
      have : dictInsertAll d (q :: qs) = dictInsertAll (d ++ [q]) qs := by
        unfold dictInsertAll
        simp only [List.foldl_cons]
        rw [hstep, heta]
      rw [this, ih (d ++ [q]) hrest (List.nodup_cons.1 (by rw [List.map_cons] at hnodup; exact hnodup)).2]
      simp

theorem mkRowDict_entries_of_nodup (fns cells : List String) (h : fns.Nodup) :
    (mkRowDict fns cells).entries = rowPairs fns cells := by
  rw [mkRowDict_entries_eq]
  have := dictInsertAll_fresh (rowPairs fns cells) []
    (by intro q _; simp [keysOf])
    (by rw [show (rowPairs fns cells).map Prod.fst = keysOf (rowPairs fns cells) from rfl,
          rowPairs_keys]; exact h)
  simpa using this

theorem mkRowDict_keys_nodup (fns cells : List String) :
    (keysOf (mkRowDict fns cells).entries).Nodup := by
  rw [mkRowDict_entries_eq]
  exact dictInsertAll_nodup (rowPairs fns cells) [] (by simp [keysOf])

theorem mkRowDict_mem_fns (fns cells : List String) :
    ∀ kv ∈ (mkRowDict fns cells).entries, kv.1 ∈ fns := by
  intro kv hkv
  rw [mkRowDict_entries_eq] at hkv
  rcases mem_dictInsertAll (rowPairs fns cells) [] kv hkv with h | h
  · simp at h
  · rw [← rowPairs_keys fns cells]
    exact List.mem_map_of_mem Prod.fst h

theorem mkRowDict_key_mem (fns cells : List String) :
    ∀ f ∈ fns, f ∈ keysOf (mkRowDict fns cells).entries := by
  intro f hf
  rw [mkRowDict_entries_eq]
  exact key_mem_dictInsertAll (rowPairs fns cells) [] f
    (Or.inr (by rw [rowPairs_keys]; exact hf))

theorem mkRowDict_values (fns cells : List String) :
    ∀ kv ∈ (mkRowDict fns cells).entries, kv.2 = none ∨ ∃ s ∈ cells, kv.2 = some s := by
  intro kv hkv
  rw [mkRowDict_entries_eq] at hkv
  rcases mem_dictInsertAll (rowPairs fns cells) [] kv hkv with h | h
  · simp at h
  · unfold rowPairs at h
    rcases List.mem_append.1 h with h1 | h1
    · rcases (List.mem_map).1 h1 with ⟨q, hq, hqe⟩
      right
      refine ⟨q.2, (List.of_mem_zip hq).2, ?_⟩
      rw [← hqe]
    · rcases (List.mem_map).1 h1 with ⟨k, _, hke⟩
      left
      rw [← hke]

/-! ## Helper lemmas: association-list lookup -/

theorem lookup_cons_eqn {β : Type} (f k : String) (v : β) (t : List (String × β)) :
    List.lookup f ((k, v) :: t) = if f = k then some v else List.lookup f t := by
  cases h : (f == k) with
  | false =>
      have h' : ¬f = k := by simpa using h
      simp [List.lookup, h, h']
  | true =>
      have h' : f = k := by simpa using h
      simp [List.lookup, h, h']

theorem lookup_map_pair {β : Type} (g : String → β) (l : List String) (f : String) :
    (l.map (fun a => (a, g a))).lookup f = if f ∈ l then some (g f) else none := by
  induction l with
  | nil => simp
  | cons a t ih =>
      rw [List.map_cons, lookup_cons_eqn, ih]
      by_cases h : f = a
      · subst h
        simp
      · simp only [h, if_false]
        by_cases hf : f ∈ t
        · simp [hf, List.mem_cons, h]
        · have : f ∉ a :: t := by
            intro hc
            rcases (List.mem_cons).1 hc with hc | hc
            · exact h hc
            · exact hf hc
          simp [hf, this]

theorem lookup_append_right {β : Type} (l₁ l₂ : List (String × β)) (f : String)
    (h : f ∉ l₁.map Prod.fst) : (l₁ ++ l₂).lookup f = l₂.lookup f := by
  induction l₁ with
  | nil => simp
  | cons q t ih =>
      cases q with
      | mk k v =>
          have hq : f ≠ k := by
            intro hc
            exact h (by simp [hc])
          rw [List.cons_append, lookup_cons_eqn, if_neg hq]
          exact ih (by intro hc; exact h (by simp at hc ⊢; exact Or.inr hc))

theorem lookup_isSome_of_key_mem {β : Type} (d : List (String × β)) (f : String)
    (h : f ∈ d.map Prod.fst) : ∃ v, d.lookup f = some v := by
  induction d with
  | nil => simp at h
  | cons q t ih =>
      cases q with
      | mk k v =>
          rw [lookup_cons_eqn]
          by_cases hk : f = k
          · exact ⟨v, by simp [hk]⟩
          · have hmem : f ∈ t.map Prod.fst := by
              simp only [List.map_cons, List.mem_cons] at h
              rcases h with h | h
              · exact absurd h hk
              · exact h
            rcases ih hmem with ⟨w, hw⟩
            exact ⟨w, by rw [if_neg hk]; exact hw⟩

theorem mem_of_lookup_eq_some {β : Type} (d : List (String × β)) (f : String) (v : β)
    (h : d.lookup f = some v) : (f, v) ∈ d := by
  induction d with
  | nil => simp [List.lookup] at h
  | cons q t ih =>
      cases q with
      | mk k w =>
          rw [lookup_cons_eqn] at h
          by_cases hk : f = k
          · rw [if_pos hk] at h
            simp only [Option.some.injEq] at h
            subst h
            subst hk
            simp
          · rw [if_neg hk] at h
            exact List.mem_cons_of_mem _ (ih h)

/-! ## Helper lemmas: required-field check and row stripping -/

theorem truthy_eq_true_iff (v : Option String) :
    truthy v = true ↔ ∃ s, v = some s ∧ s ≠ "" := by
  cases v with
  | none => simp [truthy]
  | some s => simp [truthy]

theorem checkRequired_cons (f : String) (fs : List String) (entries : DictEntries) :
    checkRequired (f :: fs) entries =
      (match entries.lookup f with
       | none => RowCheck.missingKey
       | some v => if truthy v then checkRequired fs entries else RowCheck.falsy) := rfl

theorem checkRequired_cons_none (f : String) (fs : List String) (entries : DictEntries)
    (hlk : entries.lookup f = none) :
    checkRequired (f :: fs) entries = .missingKey := by
  rw [checkRequired_cons, hlk]

theorem checkRequired_cons_some (f : String) (fs : List String) (entries : DictEntries)
    (v : Option String) (hlk : entries.lookup f = some v) :
    checkRequired (f :: fs) entries =
      (if truthy v then checkRequired fs entries else .falsy) := by
  rw [checkRequired_cons, hlk]

theorem checkRequired_ok_iff (req : List String) (entries : DictEntries) :
    checkRequired req entries = .ok ↔
      ∀ f ∈ req, ∃ v, entries.lookup f = some v ∧ truthy v = true := by
  induction req with
  | nil => simp [checkRequired]
  | cons f fs ih =>
      constructor
      · intro h g hg
        cases hlk : entries.lookup f with
        | none => rw [checkRequired_cons_none f fs entries hlk] at h; simp at h
        | some v =>
            rw [checkRequired_cons_some f fs entries v hlk] at h
            cases htr : truthy v with
            | false => rw [htr] at h; simp at h
            | true =>
                rw [htr, if_pos rfl] at h
                rcases (List.mem_cons).1 hg with hg1 | hg1
                · subst hg1
                  exact ⟨v, hlk, htr⟩
                · exact (ih.1 h) g hg1
      · intro h
        rcases h f (List.mem_cons_self f fs) with ⟨v, hlk, htr⟩
        rw [checkRequired_cons_some f fs entries v hlk, htr, if_pos rfl]
        exact ih.2 (fun g hg => h g (List.mem_cons_of_mem f hg))

theorem checkRequired_falsy_of (req : List String) (entries : DictEntries)
    (hkeys : ∀ f ∈ req, ∃ v, entries.lookup f = some v)
    (hex : ∃ f ∈ req, ∃ v, entries.lookup f = some v ∧ truthy v = false) :
    checkRequired req entries = .falsy := by
  induction req with
  | nil => rcases hex with ⟨f, hf, _⟩; simp at hf
  | cons f fs ih =>
      rcases hkeys f (List.mem_cons_self f fs) with ⟨v, hlk⟩
      rw [checkRequired_cons_some f fs entries v hlk]
      cases htr : truthy v with
      | false => simp
      | true =>
          rw [if_pos rfl]
          apply ih
          · exact fun g hg => hkeys g (List.mem_cons_of_mem f hg)
          · rcases hex with ⟨g, hg, w, hw, hwf⟩
            rcases (List.mem_cons).1 hg with hg1 | hg1
            · subst hg1
              rw [hlk] at hw
              simp only [Option.some.injEq] at hw
              subst hw
              rw [htr] at hwf
              simp at hwf
            · exact ⟨g, hg1, w, hw, hwf⟩

/-- The entry transformation performed by the strip/projection
comprehension on a row whose kept values are all strings. -/
def stripKeep (fieldNames : List String) (kv : String × Option String) :
    Option (String × String) :=
  match kv.2 with
  | some s => if kv.1 ∈ fieldNames then some (kv.1, pyStrip s) else none
  | none => none

theorem stripRow_ok_of (fn : List String) (entries : DictEntries)
    (hall : ∀ kv ∈ entries, kv.1 ∈ fn → ∃ s, kv.2 = some s) :
    stripRow fn entries = .ok (entries.filterMap (stripKeep fn)) := by
  induction entries with
  | nil => rfl
  | cons q t ih =>
      cases q with
      | mk k v =>
          have htail : ∀ kv ∈ t, kv.1 ∈ fn → ∃ s, kv.2 = some s :=
            fun kv hkv => hall kv (List.mem_cons_of_mem _ hkv)
          cases v with
          | none =>
              have hk : k ∉ fn := by
                intro hc
                rcases hall (k, none) (List.mem_cons_self _ t) hc with ⟨s, hs⟩
                simp at hs
              unfold stripRow
              rw [if_neg hk, ih htail]
              simp [List.filterMap_cons, stripKeep]
          | some sv =>
              by_cases hk : k ∈ fn
              · unfold stripRow
                rw [if_pos hk, ih htail]
                simp [Except.map, List.filterMap_cons, stripKeep, hk]
              · unfold stripRow
                rw [if_neg hk, ih htail]
                simp [List.filterMap_cons, stripKeep, hk]

theorem stripRow_ok_inv (fn : List String) (entries : DictEntries)
    (r : List (String × String)) (h : stripRow fn entries = .ok r) :
    (∀ kv ∈ entries, kv.1 ∈ fn → ∃ s, kv.2 = some s) ∧
      r = entries.filterMap (stripKeep fn) := by
  have hall : ∀ kv ∈ entries, kv.1 ∈ fn → ∃ s, kv.2 = some s := by
    induction entries generalizing r with
    | nil => intro kv hkv; simp at hkv
    | cons q t ih =>
        intro kv hkv hkfn
        cases q with
        | mk k v =>
            cases v with
            | none =>
                unfold stripRow at h
                by_cases hk : k ∈ fn
                · rw [if_pos hk] at h
                  simp at h
                · rw [if_neg hk] at h
                  rcases (List.mem_cons).1 hkv with h1 | h1
                  · subst h1
                    simp only at hkfn
                    exact absurd hkfn hk
                  · exact ih r h kv h1 hkfn
            | some sv =>
                rcases (List.mem_cons).1 hkv with h1 | h1
                · subst h1
                  exact ⟨sv, rfl⟩
                · unfold stripRow at h
                  by_cases hk : k ∈ fn
                  · rw [if_pos hk] at h
                    cases hst : stripRow fn t with
                    | error e => rw [hst] at h; simp [Except.map] at h
                    | ok r2 => exact ih r2 hst kv h1 hkfn
                  · rw [if_neg hk] at h
                    exact ih r h kv h1 hkfn
  refine ⟨hall, ?_⟩
  rw [stripRow_ok_of fn entries hall] at h
  simpa using h.symm

theorem stripRow_error_shape (fn : List String) (entries : DictEntries)
    (e : LoadError) (h : stripRow fn entries = .error e) : e = .attributeError := by
  induction entries with
  | nil => simp [stripRow] at h
  | cons q t ih =>
      cases q with
      | mk k v =>
          cases v with
          | none =>
              unfold stripRow at h
              by_cases hk : k ∈ fn
              · rw [if_pos hk] at h
                simp only [Except.error.injEq] at h
                exact h.symm
              · rw [if_neg hk] at h
                exact ih h
          | some sv =>
              unfold stripRow at h
              by_cases hk : k ∈ fn
              · rw [if_pos hk] at h
                cases hst : stripRow fn t with
                | error e2 =>
                    rw [hst] at h
                    simp only [Except.map, Except.error.injEq] at h
                    rw [h] at hst
                    exact ih hst
                | ok r2 => rw [hst] at h; simp [Except.map] at h
              · rw [if_neg hk] at h
                exact ih h

theorem stripRow_error_of_none (fn : List String) (entries : DictEntries)
    (k : String) (hmem : (k, (none : Option String)) ∈ entries) (hk : k ∈ fn) :
    stripRow fn entries = .error .attributeError := by
  induction entries with
  | nil => simp at hmem
  | cons q t ih =>
      cases q with
      | mk k2 v2 =>
          rcases (List.mem_cons).1 hmem with h1 | h1
          · have hk2 : k2 = k := congrArg Prod.fst h1.symm
            have hv2 : v2 = none := congrArg Prod.snd h1.symm
            subst hk2
            subst hv2
            unfold stripRow
            rw [if_pos hk]
          · cases v2 with
            | none =>
                unfold stripRow
                by_cases hk2 : k2 ∈ fn
                · rw [if_pos hk2]
                · rw [if_neg hk2]
                  exact ih h1
            | some s2 =>
                unfold stripRow
                by_cases hk2 : k2 ∈ fn
                · rw [if_pos hk2, ih h1]
                  rfl
                · rw [if_neg hk2]
                  exact ih h1

theorem stripRow_lookup (fn : List String) (entries : DictEntries)
    (f sv : String) (hlk : entries.lookup f = some (some sv)) (hf : f ∈ fn) :
    ∀ r, stripRow fn entries = .ok r → r.lookup f = some (pyStrip sv) := by
  induction entries with
  | nil => simp [List.lookup] at hlk
  | cons q t ih =>
      intro r hok
      cases q with
      | mk k v =>
          rw [lookup_cons_eqn] at hlk
          by_cases hk : f = k
          · rw [if_pos hk] at hlk
            have hv : v = some sv := by simpa using hlk
            subst hv
            subst hk
            unfold stripRow at hok
            rw [if_pos hf] at hok
            cases hst : stripRow fn t with
            | error e => rw [hst] at hok; simp [Except.map] at hok
            | ok r2 =>
                rw [hst] at hok
                simp only [Except.map, Except.ok.injEq] at hok
                rw [← hok, lookup_cons_eqn]
                simp
          · rw [if_neg hk] at hlk
            cases v with
            | none =>
                unfold stripRow at hok
                by_cases hkfn : k ∈ fn
                · rw [if_pos hkfn] at hok
                  simp at hok
                · rw [if_neg hkfn] at hok
                  exact ih hlk r hok
            | some sv2 =>
                unfold stripRow at hok
                by_cases hkfn : k ∈ fn
                · rw [if_pos hkfn] at hok
                  cases hst : stripRow fn t with
                  | error e => rw [hst] at hok; simp [Except.map] at hok
                  | ok r2 =>
                      rw [hst] at hok
                      simp only [Except.map, Except.ok.injEq] at hok
                      rw [← hok, lookup_cons_eqn, if_neg hk]
                      exact ih hlk r2 hst
                · rw [if_neg hkfn] at hok
                  exact ih hlk r hok

/-! ## Helper lemmas: row iteration and the loader -/

theorem processRow_ok_inv (fn req fns cells : List String) (n : Nat)
    (rec : List (String × String)) (h : processRow fn req fns cells n = .ok rec) :
    (mkRowDict fns cells).hasRest = false ∧
      checkRequired req (mkRowDict fns cells).entries = .ok ∧
      stripRow fn (mkRowDict fns cells).entries = .ok rec := by
  unfold processRow at h
  by_cases hrest : (mkRowDict fns cells).hasRest = true
  · rw [if_pos hrest] at h
    simp at h
  · rw [if_neg hrest] at h
    refine ⟨by simpa using hrest, ?_⟩
    cases hchk : checkRequired req (mkRowDict fns cells).entries with
    | missingKey => rw [hchk] at h; simp at h
    | falsy => rw [hchk] at h; simp at h
    | ok => exact ⟨rfl, by rw [hchk] at h; exact h⟩

theorem processRow_ok_build (fn req fns cells : List String) (n : Nat)
    (rec : List (String × String))
    (hrest : (mkRowDict fns cells).hasRest = false)
    (hchk : checkRequired req (mkRowDict fns cells).entries = .ok)
    (hstrip : stripRow fn (mkRowDict fns cells).entries = .ok rec) :
    processRow fn req fns cells n = .ok rec := by
  unfold processRow
  rw [hrest]
  simp only [Bool.false_eq_true, if_false]
  rw [hchk]
  exact hstrip

theorem processRow_missingData_inv (fn req fns cells : List String) (n m : Nat)
    (fs : List String) (h : processRow fn req fns cells n = .error (.missingData m fs)) :
    m = n ∧ fs = fn := by
  unfold processRow at h
  by_cases hrest : (mkRowDict fns cells).hasRest = true
  · rw [if_pos hrest] at h
    simp only [Except.error.injEq, LoadError.missingData.injEq] at h
    exact ⟨h.1.symm, h.2.symm⟩
  · rw [if_neg hrest] at h
    cases hchk : checkRequired req (mkRowDict fns cells).entries with
    | missingKey => rw [hchk] at h; simp at h
    | falsy =>
        rw [hchk] at h
        simp only [Except.error.injEq, LoadError.missingData.injEq] at h
        exact ⟨h.1.symm, h.2.symm⟩
    | ok =>
        rw [hchk] at h
        have := stripRow_error_shape fn (mkRowDict fns cells).entries _ h
        simp at this

theorem processRows_ok_mem (fn req fns : List String) : ∀ (rows : List (List String))
    (n : Nat) (recs : List (List (String × String))),
    processRows fn req fns rows n = .ok recs →
    ∀ rec ∈ recs, ∃ cells ∈ rows, ∃ k, processRow fn req fns cells k = .ok rec := by
  intro rows
  induction rows with
  | nil =>
      intro n recs h rec hrec
      unfold processRows at h
      simp only [Except.ok.injEq] at h
      subst h
      simp at hrec
  | cons c rest ih =>
      intro n recs h rec hrec
      unfold processRows at h
      cases hpr : processRow fn req fns c n with
      | error e => rw [hpr] at h; simp at h
      | ok rec0 =>
          rw [hpr] at h
          cases hrs : processRows fn req fns rest (n + 1) with
          | error e => rw [hrs] at h; simp [Except.map] at h
          | ok rs =>
              rw [hrs] at h
              simp only [Except.map, Except.ok.injEq] at h
              subst h
              rcases (List.mem_cons).1 hrec with h1 | h1
              · subst h1
                exact ⟨c, List.mem_cons_self c rest, n, hpr⟩
              · rcases ih (n + 1) rs hrs rec h1 with ⟨cells, hc, k, hk⟩
                exact ⟨cells, List.mem_cons_of_mem c hc, k, hk⟩

theorem processRows_missingData_inv (fn req fns : List String) :
    ∀ (rows : List (List String)) (n m : Nat) (fs : List String),
    processRows fn req fns rows n = .error (.missingData m fs) →
    fs = fn ∧ ∃ i, i < rows.length ∧ m = n + i ∧
      processRow fn req fns (rows.getD i []) (n + i) = .error (.missingData (n + i) fn) ∧
      ∀ j, j < i → ∃ rec, processRow fn req fns (rows.getD j []) (n + j) = .ok rec := by
  intro rows
  induction rows with
  | nil =>
      intro n m fs h
      unfold processRows at h
      simp at h
  | cons c rest ih =>
      intro n m fs h
      unfold processRows at h
      cases hpr : processRow fn req fns c n with
      | error e =>
          rw [hpr] at h
          simp only [Except.error.injEq] at h
          subst h
          rcases processRow_missingData_inv fn req fns c n m fs hpr with ⟨hm, hfs⟩
          subst hm
          subst hfs
          refine ⟨rfl, 0, by simp, by simp, ?_, ?_⟩
          · simpa using hpr
          · intro j hj
            omega
      | ok rec0 =>
          rw [hpr] at h
          cases hrs : processRows fn req fns rest (n + 1) with
          | error e2 =>
              rw [hrs] at h
              simp only [Except.map, Except.error.injEq] at h
              subst h
              rcases ih (n + 1) m fs hrs with ⟨hfs, i, hi, hm, hbad, hgood⟩
              refine ⟨hfs, i + 1, by simpa using Nat.succ_lt_succ hi, by omega, ?_, ?_⟩
              · have : n + (i + 1) = n + 1 + i := by omega
                rw [this]
                simpa using hbad
              · intro j hj
                cases j with
                | zero =>
                    refine ⟨rec0, ?_⟩
                    simpa using hpr
                | succ j2 =>
                    have hj2 : j2 < i := by omega
                    rcases hgood j2 hj2 with ⟨rec2, hrec2⟩
                    refine ⟨rec2, ?_⟩
                    have : n + (j2 + 1) = n + 1 + j2 := by omega
                    rw [this]
                    simpa using hrec2
          | ok rs => rw [hrs] at h; simp [Except.map] at h

theorem processRows_ok_of (fn req fns : List String)
    (recFor : List String → List (String × String)) :
    ∀ (rows : List (List String)) (n : Nat),
    (∀ cells ∈ rows, processRow fn req fns cells 1 = .ok (recFor cells)) →
    processRows fn req fns rows n = .ok (rows.map recFor) := by
  intro rows
  induction rows with
  | nil => intro n _; rfl
  | cons c rest ih =>
      intro n hall
      have hc := hall c (List.mem_cons_self c rest)
      rcases processRow_ok_inv fn req fns c 1 (recFor c) hc with ⟨hrest, hchk, hstrip⟩
      unfold processRows
      rw [processRow_ok_build fn req fns c n (recFor c) hrest hchk hstrip]
      rw [ih (n + 1) (fun cells hc2 => hall cells (List.mem_cons_of_mem c hc2))]
      rfl

theorem headerFns_of_parse (csv : String) (rawHeader : List String)
    (dataRecs : List (List String))
    (hp : parseRecords (pySplitlines csv) = rawHeader :: dataRecs) :
    headerFns csv = rawHeader.map normalizeHeader := by
  unfold headerFns
  rw [hp]

theorem dataRows_of_parse (csv : String) (rawHeader : List String)
    (dataRecs : List (List String))
    (hp : parseRecords (pySplitlines csv) = rawHeader :: dataRecs) :
    dataRows csv = dataRecs.filter (fun r => !r.isEmpty) := by
  unfold dataRows
  rw [hp]

theorem load_ok_inv (csv : String) (fn opt : List String)
    (recs : List (List (String × String)))
    (h : load_records_from_csv csv fn opt = .ok recs) :
    ((requiredOf fn opt).filter (fun f => !(headerFns csv).contains f)) = [] ∧
      processRows fn (requiredOf fn opt) (headerFns csv) (dataRows csv) 1 = .ok recs := by
  cases hp : parseRecords (pySplitlines csv) with
  | nil =>
      unfold load_records_from_csv at h
      rw [hp] at h
      simp at h
  | cons rawHeader dataRecs =>
      unfold load_records_from_csv at h
      rw [hp] at h
      dsimp only at h
      rw [headerFns_of_parse csv rawHeader dataRecs hp,
        dataRows_of_parse csv rawHeader dataRecs hp]
      by_cases hm : ((requiredOf fn opt).filter
          (fun f => !(rawHeader.map normalizeHeader).contains f)).isEmpty = true
      · rw [if_pos hm] at h
        exact ⟨List.isEmpty_iff.1 hm, h⟩
      · rw [if_neg hm] at h
        simp at h

theorem load_missingData_inv (csv : String) (fn opt : List String) (m : Nat)
    (fs : List String)
    (h : load_records_from_csv csv fn opt = .error (.missingData m fs)) :
    ((requiredOf fn opt).filter (fun f => !(headerFns csv).contains f)) = [] ∧
      processRows fn (requiredOf fn opt) (headerFns csv) (dataRows csv) 1 =
        .error (.missingData m fs) := by
  cases hp : parseRecords (pySplitlines csv) with
  | nil =>
      unfold load_records_from_csv at h
      rw [hp] at h
      simp at h
  | cons rawHeader dataRecs =>
      unfold load_records_from_csv at h
      rw [hp] at h
      dsimp only at h
      rw [headerFns_of_parse csv rawHeader dataRecs hp,
        dataRows_of_parse csv rawHeader dataRecs hp]
      by_cases hm : ((requiredOf fn opt).filter
          (fun f => !(rawHeader.map normalizeHeader).contains f)).isEmpty = true
      · rw [if_pos hm] at h
        exact ⟨List.isEmpty_iff.1 hm, h⟩
      · rw [if_neg hm] at h
        simp at h

theorem required_mem_headerFns (csv : String) (fn opt : List String)
    (hfil : ((requiredOf fn opt).filter (fun f => !(headerFns csv).contains f)) = []) :
    ∀ f ∈ requiredOf fn opt, f ∈ headerFns csv := by
  intro f hf
  have := (List.filter_eq_nil_iff).1 hfil f hf
  simp only [Bool.not_eq_true, Bool.not_eq_false] at this
  simpa using this

theorem stripKeep_some_inv (fn : List String) (kv0 : String × Option String)
    (kv : String × String) (h : stripKeep fn kv0 = some kv) :
    kv0.1 ∈ fn ∧ kv.1 = kv0.1 ∧ ∃ s, kv0.2 = some s ∧ kv.2 = pyStrip s := by
  cases kv0 with
  | mk k v =>
      cases v with
      | none => simp [stripKeep] at h
      | some sv =>
          simp only [stripKeep] at h
          by_cases hk : k ∈ fn
          · rw [if_pos hk] at h
            simp only [Option.some.injEq] at h
            subst h
            exact ⟨hk, rfl, sv, rfl, rfl⟩
          · rw [if_neg hk] at h
            simp at h

theorem lookup_rowPairs_drop (fns cells : List String) (f : String)
    (hnd : fns.Nodup) (hf : f ∈ fns.drop cells.length) :
    (rowPairs fns cells).lookup f = some none := by
  have htake : ((fns.zip cells).map (fun kv => (kv.1, some kv.2))).map Prod.fst =
      fns.take cells.length := by
    rw [List.map_map, ← zip_map_fst fns cells]
    rfl
  have hdisj : List.Disjoint (fns.take cells.length) (fns.drop cells.length) := by
    have := hnd
    rw [← List.take_append_drop cells.length fns] at this
    exact List.disjoint_of_nodup_append this
  have hnotin : f ∉ ((fns.zip cells).map (fun kv => (kv.1, some kv.2))).map Prod.fst := by
    rw [htake]
    intro hc
    exact hdisj hc hf
  unfold rowPairs
  rw [lookup_append_right _ _ f hnotin]
  have := lookup_map_pair (fun _ : String => (none : Option String)) (fns.drop cells.length) f
  rw [this, if_pos hf]

/-! ## Amended claim theorems for the CSV loader -/

/-- C3 (amended): whenever `load_records_from_csv` returns a record list,
every required field is present among the normalized headers
(case/whitespace-insensitively), and in every returned record every
required field is present with a value obtained by trimming a raw cell
value that was non-empty before trimming; the stored trimmed value itself
may be empty, because the truthiness check runs on the raw value before
stripping. -/
theorem C3_amended (csv : String) (fn opt : List String)
    (recs : List (List (String × String)))
    (h : load_records_from_csv csv fn opt = .ok recs) :
    (∀ f ∈ requiredOf fn opt, f ∈ headerFns csv) ∧
    (∀ rec ∈ recs, ∀ f ∈ requiredOf fn opt,
      ∃ raw, raw ≠ "" ∧ rec.lookup f = some (pyStrip raw)) := by
  rcases load_ok_inv csv fn opt recs h with ⟨hfil, hrows⟩
  refine ⟨required_mem_headerFns csv fn opt hfil, ?_⟩
  intro rec hrec f hf
  rcases processRows_ok_mem fn (requiredOf fn opt) (headerFns csv) (dataRows csv) 1
    recs hrows rec hrec with ⟨cells, _, k, hk⟩
  rcases processRow_ok_inv _ _ _ _ _ _ hk with ⟨_, hchk, hstrip⟩
  rcases (checkRequired_ok_iff _ _).1 hchk f hf with ⟨v, hlk, htr⟩
  rcases (truthy_eq_true_iff v).1 htr with ⟨raw, hv, hraw⟩
  subst hv
  have hffn : f ∈ fn := List.mem_of_mem_filter hf
  exact ⟨raw, hraw, stripRow_lookup fn _ f raw hlk hffn rec hstrip⟩

/-- Witness for C3: a loaded record whose required value is the trim of a
non-empty raw value. -/
theorem C3_witness :
    load_records_from_csv "name\n  A  " ["name"] [] = .ok [[("name", "A")]] ∧
    "name" ∈ headerFns "name\n  A  " ∧
    (∃ raw, raw ≠ "" ∧ [("name", "A")].lookup "name" = some (pyStrip raw)) := by
  have h : load_records_from_csv "name\n  A  " ["name"] [] = .ok [[("name", "A")]] := rfl
  have h2 := C3_amended "name\n  A  " ["name"] [] [[("name", "A")]] h
  exact ⟨h, h2.1 "name" (by decide),
    h2.2 [("name", "A")] (by simp) "name" (by decide)⟩

/-- C4 (amended): when the loader fails with the missing-data
`ValidationError`, the message carries the offending row number (1-indexed
over the yielded data rows: the named row fails and all earlier data rows
process successfully) together with the complete `field_names` list —
including the optional fields — rather than `field_names` minus
`optional_fields` as the claim stated. -/
theorem C4_amended (csv : String) (fn opt : List String) (m : Nat) (fs : List String)
    (h : load_records_from_csv csv fn opt = .error (.missingData m fs)) :
    fs = fn ∧ 1 ≤ m ∧ m ≤ (dataRows csv).length ∧
      processRow fn (requiredOf fn opt) (headerFns csv) ((dataRows csv).getD (m - 1) []) m =
        .error (.missingData m fn) ∧
      (∀ j, j + 1 < m → ∃ rec, processRow fn (requiredOf fn opt) (headerFns csv)
        ((dataRows csv).getD j []) (j + 1) = .ok rec) := by
  rcases load_missingData_inv csv fn opt m fs h with ⟨hfil, hrows⟩
  rcases processRows_missingData_inv fn (requiredOf fn opt) (headerFns csv)
    (dataRows csv) 1 m fs hrows with ⟨hfs, i, hi, hm, hbad, hgood⟩
  refine ⟨hfs, by omega, by omega, ?_, ?_⟩
  · have h1 : m - 1 = i := by omega
    have h2 : 1 + i = m := by omega
    rw [h1, ← h2]
    exact hbad
  · intro j hj
    have hji : j < i := by omega
    rcases hgood j hji with ⟨rec, hrec⟩
    refine ⟨rec, ?_⟩
    have : j + 1 = 1 + j := by omega
    rw [this]
    exact hrec

/-- Witness for C4: a failing load whose reported list is the full field
list and whose reported row is the offending one. -/
theorem C4_witness :
    load_records_from_csv "name,phone\nA,x\n,y" ["name", "phone"] ["phone"] =
      .error (.missingData 2 ["name", "phone"]) ∧
    ["name", "phone"] = ["name", "phone"] ∧ 1 ≤ 2 ∧
      2 ≤ (dataRows "name,phone\nA,x\n,y").length := by
  have h : load_records_from_csv "name,phone\nA,x\n,y" ["name", "phone"] ["phone"] =
      .error (.missingData 2 ["name", "phone"]) := rfl
  have h2 := C4_amended "name,phone\nA,x\n,y" ["name", "phone"] ["phone"] 2
    ["name", "phone"] h
  exact ⟨h, h2.1, h2.2.1, h2.2.2.1⟩

/-- C6 (amended): every key of a returned record is a requested field and
carries a value with no surrounding whitespace, and a requested field is
present as a key exactly when it occurs among the normalized headers; an
optional requested field absent from the header is missing from the
record. -/
theorem C6_amended (csv : String) (fn opt : List String)
    (recs : List (List (String × String)))
    (h : load_records_from_csv csv fn opt = .ok recs) :
    ∀ rec ∈ recs,
      (∀ kv ∈ rec, kv.1 ∈ fn) ∧
      (∀ f ∈ fn, ((rec.lookup f).isSome ↔ f ∈ headerFns csv)) ∧
      (∀ kv ∈ rec, pyStrip kv.2 = kv.2) := by
  rcases load_ok_inv csv fn opt recs h with ⟨hfil, hrows⟩
  intro rec hrec
  rcases processRows_ok_mem fn (requiredOf fn opt) (headerFns csv) (dataRows csv) 1
    recs hrows rec hrec with ⟨cells, _, k, hk⟩
  rcases processRow_ok_inv _ _ _ _ _ _ hk with ⟨_, _, hstrip⟩
  rcases stripRow_ok_inv _ _ _ hstrip with ⟨hall, hreceq⟩
  refine ⟨?_, ?_, ?_⟩
  · intro kv hkv
    rw [hreceq] at hkv
    rcases (List.mem_filterMap).1 hkv with ⟨kv0, _, hkeep⟩
    rcases stripKeep_some_inv fn kv0 kv hkeep with ⟨hk1, hk2, _⟩
    rw [hk2]
    exact hk1
  · intro f hf
    constructor
    · intro hsome
      rcases Option.isSome_iff_exists.1 hsome with ⟨v, hv⟩
      have hmem := mem_of_lookup_eq_some rec f v hv
      rw [hreceq] at hmem
      rcases (List.mem_filterMap).1 hmem with ⟨kv0, hkv0, hkeep⟩
      rcases stripKeep_some_inv fn kv0 (f, v) hkeep with ⟨_, hk2, _⟩
      have : kv0.1 ∈ headerFns csv :=
        mkRowDict_mem_fns (headerFns csv) cells kv0 hkv0
      simpa [← hk2] using this
    · intro hmemfns
      have hkey := mkRowDict_key_mem (headerFns csv) cells f hmemfns
      rcases lookup_isSome_of_key_mem (mkRowDict (headerFns csv) cells).entries f hkey
        with ⟨v, hv⟩
      have hmem := mem_of_lookup_eq_some _ f v hv
      rcases hall (f, v) hmem hf with ⟨sv, hsv⟩
      simp only at hsv
      subst hsv
      have := stripRow_lookup fn _ f sv hv hf rec hstrip
      simp [this]
  · intro kv hkv
    rw [hreceq] at hkv
    rcases (List.mem_filterMap).1 hkv with ⟨kv0, _, hkeep⟩
    rcases stripKeep_some_inv fn kv0 kv hkeep with ⟨_, _, sv, _, hv2⟩
    rw [hv2]
    exact pyStrip_pyStrip sv

/-- Witness for C6: record keys are exactly the requested fields that
occur in the header, values carry no surrounding whitespace. -/
theorem C6_witness :
    load_records_from_csv "name\nA" ["name", "phone"] ["phone"] = .ok [[("name", "A")]] ∧
    ("name", "A").1 ∈ ["name", "phone"] ∧
    (([("name", "A")].lookup "phone").isSome ↔ "phone" ∈ headerFns "name\nA") ∧
    pyStrip ("name", "A").2 = ("name", "A").2 := by
  have h : load_records_from_csv "name\nA" ["name", "phone"] ["phone"] =
      .ok [[("name", "A")]] := rfl
  have h2 := C6_amended "name\nA" ["name", "phone"] ["phone"] [[("name", "A")]] h
    [("name", "A")] (by simp)
  exact ⟨h, h2.1 ("name", "A") (by simp), h2.2.1 "phone" (by decide),
    h2.2.2 ("name", "A") (by simp)⟩

/-- C7: header normalization trims and lowercases every raw header token
(and only header tokens: record values come from the data cells through
trimming alone, never lowercasing), so header matching is
case/whitespace-insensitive on the header side only; in particular the
header `" Email "` matches the requested field `"email"` while the value
`"B@X"` keeps its case. -/
theorem C7_header_insensitive :
    (∀ h : String, normalizeHeader h = pyLower (pyStrip h)) ∧
    (∀ (csv : String) (fn opt : List String) (recs : List (List (String × String))),
      load_records_from_csv csv fn opt = .ok recs →
      ∀ rec ∈ recs, ∀ kv ∈ rec, ∃ cells ∈ dataRows csv, ∃ c ∈ cells, kv.2 = pyStrip c) ∧
    normalizeHeader " Email " = "email" ∧
    load_records_from_csv "name, Email \nA,B@X" ["name", "email"] [] =
      .ok [[("name", "A"), ("email", "B@X")]] := by
  refine ⟨fun _ => rfl, ?_, rfl, rfl⟩
  intro csv fn opt recs h rec hrec kv hkv
  rcases load_ok_inv csv fn opt recs h with ⟨hfil, hrows⟩
  rcases processRows_ok_mem fn (requiredOf fn opt) (headerFns csv) (dataRows csv) 1
    recs hrows rec hrec with ⟨cells, hcells, k, hk⟩
  rcases processRow_ok_inv _ _ _ _ _ _ hk with ⟨_, _, hstrip⟩
  rcases stripRow_ok_inv _ _ _ hstrip with ⟨_, hreceq⟩
  rw [hreceq] at hkv
  rcases (List.mem_filterMap).1 hkv with ⟨kv0, hkv0, hkeep⟩
  rcases stripKeep_some_inv fn kv0 kv hkeep with ⟨_, _, sv, hsv, hv2⟩
  rcases mkRowDict_values (headerFns csv) cells kv0 hkv0 with hnone | ⟨c, hc, hceq⟩
  · rw [hnone] at hsv
    simp at hsv
  · rw [hceq] at hsv
    simp only [Option.some.injEq] at hsv
    subst hsv
    exact ⟨cells, hcells, c, hc, hv2⟩

/-- Witness for C7: the concrete load of part four, fed through the
values-only-trimmed conjunct. -/
theorem C7_witness :
    load_records_from_csv "name, Email \nA,B@X" ["name", "email"] [] =
      .ok [[("name", "A"), ("email", "B@X")]] ∧
    (∃ cells ∈ dataRows "name, Email \nA,B@X", ∃ c ∈ cells,
      ("email", "B@X").2 = pyStrip c) := by
  have h : load_records_from_csv "name, Email \nA,B@X" ["name", "email"] [] =
      .ok [[("name", "A"), ("email", "B@X")]] := rfl
  exact ⟨h, C7_header_insensitive.2.1 "name, Email \nA,B@X" ["name", "email"] []
    [[("name", "A"), ("email", "B@X")]] h [("name", "A"), ("email", "B@X")] (by simp)
    ("email", "B@X") (by simp)⟩

/-- C5 (amended): a reached ragged data row does not always fail, and when
it fails the fault is not always the ValidationError.  Precisely: a row
with more cells than headers always fails with the ValidationError naming
that row's number; a row with fewer cells gets the missing-value marker on
the trailing header columns and (i) fails with the ValidationError naming
the row's number when some required field receives the marker, (ii)
otherwise fails with the generic attribute fault when some requested (but
optional) field receives the marker, and (iii) otherwise is accepted. -/
theorem C5_amended (fieldNames required fns cells : List String) (n : Nat) :
    (fns.length < cells.length →
      processRow fieldNames required fns cells n = .error (.missingData n fieldNames)) ∧
    (cells.length < fns.length → fns.Nodup → (∀ f ∈ required, f ∈ fns) →
      (∃ f ∈ required, f ∈ fns.drop cells.length) →
      processRow fieldNames required fns cells n = .error (.missingData n fieldNames)) ∧
    (cells.length < fns.length → fns.Nodup → (∀ f ∈ required, f ∈ fns) →
      (∀ f ∈ required, ∃ v, (mkRowDict fns cells).entries.lookup f = some v ∧
        truthy v = true) →
      (∃ k ∈ fns.drop cells.length, k ∈ fieldNames) →
      processRow fieldNames required fns cells n = .error .attributeError) ∧
    (cells.length < fns.length → fns.Nodup → (∀ f ∈ required, f ∈ fns) →
      (∀ f ∈ required, ∃ v, (mkRowDict fns cells).entries.lookup f = some v ∧
        truthy v = true) →
      (∀ k ∈ fns.drop cells.length, k ∉ fieldNames) →
      ∃ rec, processRow fieldNames required fns cells n = .ok rec) := by
  refine ⟨?_, ?_, ?_, ?_⟩
  · intro hlt
    unfold processRow
    rw [mkRowDict_hasRest]
    simp [hlt]
  · intro hlt hnd hreq ⟨f, hf, hfd⟩
    have hrest : (mkRowDict fns cells).hasRest = false := by
      rw [mkRowDict_hasRest]
      simp
      omega
    have hent := mkRowDict_entries_of_nodup fns cells hnd
    have hfalsy : checkRequired required (mkRowDict fns cells).entries = .falsy := by
      apply checkRequired_falsy_of
      · intro g hg
        exact lookup_isSome_of_key_mem _ g (mkRowDict_key_mem fns cells g (hreq g hg))
      · refine ⟨f, hf, none, ?_, rfl⟩
        rw [hent]
        exact lookup_rowPairs_drop fns cells f hnd hfd
    unfold processRow
    rw [hrest]
    simp only [Bool.false_eq_true, if_false]
    rw [hfalsy]
  · intro hlt hnd hreq htruthy ⟨k, hkd, hkf⟩
    have hrest : (mkRowDict fns cells).hasRest = false := by
      rw [mkRowDict_hasRest]
      simp
      omega
    have hent := mkRowDict_entries_of_nodup fns cells hnd
    have hok : checkRequired required (mkRowDict fns cells).entries = .ok :=
      (checkRequired_ok_iff _ _).2 htruthy
    have hmem : (k, (none : Option String)) ∈ (mkRowDict fns cells).entries := by
      rw [hent]
      unfold rowPairs
      exact List.mem_append.2 (Or.inr (List.mem_map_of_mem _ hkd))
    unfold processRow
    rw [hrest]
    simp only [Bool.false_eq_true, if_false]
    rw [hok]
    exact stripRow_error_of_none fieldNames _ k hmem hkf
  · intro hlt hnd hreq htruthy hnone
    have hrest : (mkRowDict fns cells).hasRest = false := by
      rw [mkRowDict_hasRest]
      simp
      omega
    have hent := mkRowDict_entries_of_nodup fns cells hnd
    have hok : checkRequired required (mkRowDict fns cells).entries = .ok :=
      (checkRequired_ok_iff _ _).2 htruthy
    have hall : ∀ kv ∈ (mkRowDict fns cells).entries, kv.1 ∈ fieldNames →
        ∃ s, kv.2 = some s := by
      intro kv hkv hkfn
      rw [hent] at hkv
      unfold rowPairs at hkv
      rcases List.mem_append.1 hkv with h1 | h1
      · rcases (List.mem_map).1 h1 with ⟨q, _, hqe⟩
        exact ⟨q.2, by rw [← hqe]⟩
      · rcases (List.mem_map).1 h1 with ⟨k2, hk2, hke⟩
        exfalso
        apply hnone k2 hk2
        rw [← hke] at hkfn
        exact hkfn
    refine ⟨(mkRowDict fns cells).entries.filterMap (stripKeep fieldNames), ?_⟩
    unfold processRow
    rw [hrest]
    simp only [Bool.false_eq_true, if_false]
    rw [hok]
    exact stripRow_ok_of fieldNames _ hall

/-- Witness for C5: the four behaviors exercised on concrete rows against
the header list `[name, phone]` (or `[name, extra]`). -/
theorem C5_witness :
    processRow ["a"] ["a"] ["a"] ["x", "y"] 2 = .error (.missingData 2 ["a"]) ∧
    processRow ["name", "phone"] ["phone"] ["name", "phone"] ["A"] 1 =
      .error (.missingData 1 ["name", "phone"]) ∧
    processRow ["name", "phone"] ["name"] ["name", "phone"] ["A"] 1 =
      .error .attributeError ∧
    (∃ rec, processRow ["name"] ["name"] ["name", "extra"] ["A"] 1 = .ok rec) := by
  refine ⟨?_, ?_, ?_, ?_⟩
  · exact (C5_amended ["a"] ["a"] ["a"] ["x", "y"] 2).1 (by decide)
  · exact (C5_amended ["name", "phone"] ["phone"] ["name", "phone"] ["A"] 1).2.1
      (by decide) (by decide) (by decide) (by decide)
  · exact (C5_amended ["name", "phone"] ["name"] ["name", "phone"] ["A"] 1).2.2.1
      (by decide) (by decide) (by decide) (by decide) (by decide)
  · exact (C5_amended ["name"] ["name"] ["name", "extra"] ["A"] 1).2.2.2
      (by decide) (by decide) (by decide) (by decide) (by decide)

/-- C9: the serializer emits one CRLF-terminated line per item (plus one
for the header when requested, and with the terminator also after the
final row), writes only the columns named in `field_names` (items that
agree on those fields serialize identically, so extra keys are ignored),
and renders booleans as the literal tokens `True` and `False`. -/
theorem C9_serializer (items : List Item) (fieldNames : List String)
    (includeHeaders : Bool) :
    (serialize_to_csv items fieldNames includeHeaders).data =
      (((if includeHeaders then [fieldNames] else []) ++
        items.map (fun it => rowCells fieldNames it)).map
          (fun cs => renderRowChars cs ++ ['\r', '\n'])).flatten ∧
    pyStr (PyVal.bool true) = "True" ∧ pyStr (PyVal.bool false) = "False" ∧
    (∀ it₁ it₂ : Item, (∀ f ∈ fieldNames, it₁.lookup f = it₂.lookup f) →
      rowCells fieldNames it₁ = rowCells fieldNames it₂) := by
  refine ⟨?_, rfl, rfl, ?_⟩
  · unfold serialize_to_csv
    cases includeHeaders <;> simp [List.map_map, Function.comp_def]
  · intro it₁ it₂ hagree
    unfold rowCells
    apply List.map_congr_left
    intro f hf
    rw [hagree f hf]

/-- Witness for C9: two items agreeing on the requested field serialize to
the same row although one has an extra key. -/
theorem C9_witness :
    rowCells ["a"] [("a", PyVal.str "x"), ("z", PyVal.str "q")] =
      rowCells ["a"] [("a", PyVal.str "x")] :=
  (C9_serializer [] ["a"] false).2.2.2
    [("a", PyVal.str "x"), ("z", PyVal.str "q")] [("a", PyVal.str "x")] (by decide)

/-! ## Round-trip machinery: splitlines over writer output -/

theorem splitLinesAux_crlf (rest acc : List Char) :
    splitLinesAux ('\r' :: '\n' :: rest) acc =
      String.mk acc.reverse :: splitLinesAux rest [] := rfl

set_option maxHeartbeats 1000000 in
theorem splitLinesAux_cons_nb (c : Char) (rest acc : List Char)
    (h : isLineBreak c = false) :
    splitLinesAux (c :: rest) acc = splitLinesAux rest (c :: acc) := by
  have hc : c ≠ '\r' := by
    intro he
    rw [he] at h
    simp [isLineBreak] at h
  rw [splitLinesAux.eq_def]
  split
  · simp_all
  · rename_i heq
    simp only [List.cons.injEq] at heq
    exact absurd heq.1 hc
  · rename_i hno heq
    simp only [List.cons.injEq] at heq
    obtain ⟨hc2, hrest2⟩ := heq
    subst hc2
    subst hrest2
    simp only [h, Bool.false_eq_true, if_false]

theorem splitLinesAux_append (r : List Char) (hbf : ∀ c ∈ r, isLineBreak c = false) :
    ∀ (rest acc : List Char),
    splitLinesAux (r ++ '\r' :: '\n' :: rest) acc =
      String.mk (acc.reverse ++ r) :: splitLinesAux rest [] := by
  induction r with
  | nil =>
      intro rest acc
      simp only [List.nil_append, List.append_nil]
      exact splitLinesAux_crlf rest acc
  | cons c r2 ih =>
      intro rest acc
      have hc : isLineBreak c = false := hbf c (List.mem_cons_self c r2)
      rw [List.cons_append, splitLinesAux_cons_nb c _ acc hc,
        ih (fun d hd => hbf d (List.mem_cons_of_mem c hd)) rest (c :: acc)]
      congr 2
      simp

theorem splitLines_flatten_rows (rows : List (List Char))
    (h : ∀ r ∈ rows, ∀ c ∈ r, isLineBreak c = false) :
    splitLinesAux ((rows.map (fun r => r ++ ['\r', '\n'])).flatten) [] =
      rows.map String.mk := by
  induction rows with
  | nil => rfl
  | cons r rest ih =>
      have hhead := h r (List.mem_cons_self r rest)
      have htail : ∀ r2 ∈ rest, ∀ c ∈ r2, isLineBreak c = false :=
        fun r2 hr2 => h r2 (List.mem_cons_of_mem r hr2)
      rw [List.map_cons, List.flatten_cons]
      have hshape : (r ++ ['\r', '\n']) ++ (rest.map (fun r2 => r2 ++ ['\r', '\n'])).flatten =
          r ++ '\r' :: '\n' :: (rest.map (fun r2 => r2 ++ ['\r', '\n'])).flatten := by
        rw [List.append_assoc]
        rfl
      rw [hshape, splitLinesAux_append r hhead _ [], ih htail]
      simp

/-! ## Round-trip machinery: rendered rows are line-break free -/

theorem escapeQuotes_nil : escapeQuotes [] = [] := rfl

theorem escapeQuotes_cons (c : Char) (t : List Char) :
    escapeQuotes (c :: t) =
      (if c = '"' then ['"', '"'] else [c]) ++ escapeQuotes t := by
  simp [escapeQuotes]

theorem mem_escapeQuotes (l : List Char) (c : Char) (h : c ∈ escapeQuotes l) :
    c ∈ l ∨ c = '"' := by
  induction l with
  | nil => simp [escapeQuotes] at h
  | cons a t ih =>
      rw [escapeQuotes_cons] at h
      rcases List.mem_append.1 h with h1 | h1
      · by_cases ha : a = '"'
        · rw [if_pos ha] at h1
          have : c = '"' := by simpa using h1
          exact Or.inr this
        · rw [if_neg ha] at h1
          simp only [List.mem_singleton] at h1
          subst h1
          exact Or.inl (List.mem_cons_self c t)
      · rcases ih h1 with h2 | h2
        · exact Or.inl (List.mem_cons_of_mem a h2)
        · exact Or.inr h2

theorem mem_joinComma (parts : List (List Char)) (c : Char) :
    c ∈ joinComma parts → (∃ p ∈ parts, c ∈ p) ∨ c = ',' := by
  induction parts with
  | nil => intro h; simp [joinComma] at h
  | cons x rest ih =>
      intro h
      cases rest with
      | nil =>
          left
          exact ⟨x, List.mem_cons_self x [], by simpa [joinComma] using h⟩
      | cons y rest2 =>
          rw [show joinComma (x :: y :: rest2) = x ++ ',' :: joinComma (y :: rest2) from rfl]
            at h
          rcases List.mem_append.1 h with h1 | h1
          · exact Or.inl ⟨x, List.mem_cons_self x _, h1⟩
          · rcases (List.mem_cons).1 h1 with h1 | h1
            · exact Or.inr h1
            · rcases ih h1 with ⟨p, hp, hcp⟩ | h2
              · exact Or.inl ⟨p, List.mem_cons_of_mem x hp, hcp⟩
              · exact Or.inr h2

theorem renderFieldChars_breakFree (s : String)
    (h : ∀ c ∈ s.data, isLineBreak c = false) :
    ∀ c ∈ renderFieldChars s, isLineBreak c = false := by
  intro c hc
  unfold renderFieldChars at hc
  by_cases hq : s.data.any needsQuote = true
  · rw [if_pos hq] at hc
    rcases (List.mem_cons).1 hc with h1 | h1
    · subst h1
      rfl
    · rcases List.mem_append.1 h1 with h2 | h2
      · rcases mem_escapeQuotes s.data c h2 with h3 | h3
        · exact h c h3
        · subst h3
          rfl
      · simp only [List.mem_singleton] at h2
        subst h2
        rfl
  · rw [if_neg hq] at hc
    exact h c hc

theorem renderRowChars_breakFree (cells : List String)
    (h : ∀ s ∈ cells, ∀ c ∈ s.data, isLineBreak c = false) :
    ∀ c ∈ renderRowChars cells, isLineBreak c = false := by
  intro c hc
  unfold renderRowChars at hc
  by_cases he : cells = [""]
  · rw [if_pos he] at hc
    rcases (List.mem_cons).1 hc with h1 | h1
    · subst h1
      rfl
    · simp only [List.mem_singleton] at h1
      subst h1
      rfl
  · rw [if_neg he] at hc
    rcases mem_joinComma (cells.map renderFieldChars) c hc with ⟨p, hp, hcp⟩ | h1
    · rcases (List.mem_map).1 hp with ⟨s, hs, hse⟩
      subst hse
      exact renderFieldChars_breakFree s (h s hs) c hcp
    · subst h1
      rfl

/-! ## Round-trip machinery: the reader inverts the writer -/

theorem stepChar_startField (f : List Char) (r : List String) (c : Char) :
    stepChar (.startField, f, r) c =
      (if c = '"' then (.inQuoted, f, r)
       else if c = ',' then (.startField, [], String.mk f.reverse :: r)
       else (.inField, c :: f, r)) := rfl

theorem stepChar_inField (f : List Char) (r : List String) (c : Char) :
    stepChar (.inField, f, r) c =
      (if c = ',' then (.startField, [], String.mk f.reverse :: r)
       else (.inField, c :: f, r)) := rfl

theorem stepChar_inQuoted (f : List Char) (r : List String) (c : Char) :
    stepChar (.inQuoted, f, r) c =
      (if c = '"' then (.quoteInQuoted, f, r) else (.inQuoted, c :: f, r)) := rfl

theorem stepChar_quoteInQuoted (f : List Char) (r : List String) (c : Char) :
    stepChar (.quoteInQuoted, f, r) c =
      (if c = '"' then (.inQuoted, '"' :: f, r)
       else if c = ',' then (.startField, [], String.mk f.reverse :: r)
       else (.inField, c :: f, r)) := rfl

theorem runLine_append (a b : List Char) : ∀ st : PState × List Char × List String,
    runLine st (a ++ b) = runLine (runLine st a) b := by
  induction a with
  | nil => intro st; rfl
  | cons c t ih =>
      intro st
      rw [List.cons_append]
      show runLine (stepChar st c) (t ++ b) = runLine (runLine st (c :: t)) b
      rw [ih (stepChar st c)]
      rfl

theorem runLine_unquoted (s : List Char) (hs : ∀ c ∈ s, c ≠ ',' ∧ c ≠ '"') :
    ∀ (f : List Char) (r : List String),
    runLine (.inField, f, r) s = (.inField, s.reverse ++ f, r) := by
  induction s with
  | nil => intro f r; simp [runLine]
  | cons c t ih =>
      intro f r
      have hc := hs c (List.mem_cons_self c t)
      show runLine (stepChar (.inField, f, r) c) t = _
      have hstep : stepChar (.inField, f, r) c = (.inField, c :: f, r) := by
        rw [stepChar_inField, if_neg hc.1]
      rw [hstep, ih (fun d hd => hs d (List.mem_cons_of_mem c hd)) (c :: f) r]
      simp

theorem runLine_escaped (s : List Char) : ∀ (f : List Char) (r : List String),
    runLine (.inQuoted, f, r) (escapeQuotes s) = (.inQuoted, s.reverse ++ f, r) := by
  induction s with
  | nil => intro f r; simp [escapeQuotes, runLine]
  | cons c t ih =>
      intro f r
      rw [escapeQuotes_cons]
      by_cases hc : c = '"'
      · subst hc
        rw [if_pos rfl]
        rw [show (['"', '"'] ++ escapeQuotes t : List Char) =
          '"' :: '"' :: escapeQuotes t from rfl]
        show runLine (stepChar (stepChar (.inQuoted, f, r) '"') '"') (escapeQuotes t) = _
        have h1 : stepChar ((.inQuoted : PState), f, r) '"' = (.quoteInQuoted, f, r) := by
          rw [stepChar_inQuoted, if_pos rfl]
        have h2 : stepChar ((.quoteInQuoted : PState), f, r) '"' = (.inQuoted, '"' :: f, r) := by
          rw [stepChar_quoteInQuoted, if_pos rfl]
        rw [h1, h2, ih ('"' :: f) r]
        simp
      · rw [if_neg hc]
        rw [show ([c] ++ escapeQuotes t : List Char) = c :: escapeQuotes t from rfl]
        show runLine (stepChar (.inQuoted, f, r) c) (escapeQuotes t) = _
        have h1 : stepChar ((.inQuoted : PState), f, r) c = (.inQuoted, c :: f, r) := by
          rw [stepChar_inQuoted, if_neg hc]
        rw [h1, ih (c :: f) r]
        simp

theorem stepChar_comma (st : PState) (f : List Char) (r : List String)
    (h : st ≠ .inQuoted) :
    stepChar (st, f, r) ',' = (.startField, [], String.mk f.reverse :: r) := by
  cases st with
  | startField => rfl
  | inField => rfl
  | inQuoted => exact absurd rfl h
  | quoteInQuoted => rfl

theorem runLine_renderField (s : String) (r : List String) :
    ∃ st' : PState, st' ≠ .inQuoted ∧
      runLine (.startField, [], r) (renderFieldChars s) = (st', s.data.reverse, r) := by
  unfold renderFieldChars
  by_cases hq : s.data.any needsQuote = true
  · rw [if_pos hq]
    refine ⟨.quoteInQuoted, by simp, ?_⟩
    rw [show ('"' :: (escapeQuotes s.data ++ ['"']) : List Char) =
      '"' :: escapeQuotes s.data ++ ['"'] from by simp]
    show runLine (stepChar (.startField, [], r) '"') (escapeQuotes s.data ++ ['"']) = _
    have h1 : stepChar ((.startField : PState), [], r) '"' = (.inQuoted, [], r) := by
      rw [stepChar_startField, if_pos rfl]
    rw [h1, runLine_append _ _ _, runLine_escaped s.data [] r]
    simp only [List.append_nil]
    show stepChar ((.inQuoted : PState), s.data.reverse, r) '"' = _
    rw [stepChar_inQuoted, if_pos rfl]
  · rw [if_neg hq]
    have hnospec : ∀ c ∈ s.data, c ≠ ',' ∧ c ≠ '"' := by
      intro c hc
      have h2 : needsQuote c = false := by
        have h3 := List.any_eq_false.1 (by simpa using hq) c hc
        simpa using h3
      unfold needsQuote at h2
      simp only [Bool.or_eq_false_iff, decide_eq_false_iff_not] at h2
      exact ⟨h2.1.1.1, h2.1.1.2⟩
    cases he : s.data with
    | nil =>
        refine ⟨.startField, by simp, ?_⟩
        simp [runLine]
    | cons c t =>
        refine ⟨.inField, by simp, ?_⟩
        rw [he] at hnospec
        have hc := hnospec c (List.mem_cons_self c t)
        show runLine (stepChar (.startField, [], r) c) t = _
        have h1 : stepChar ((.startField : PState), [], r) c = (.inField, [c], r) := by
          rw [stepChar_startField, if_neg hc.2, if_neg hc.1]
        rw [h1, runLine_unquoted t (fun d hd => hnospec d (List.mem_cons_of_mem c hd)) [c] r]
        simp

theorem runLine_joinComma (cells : List String) (hne : cells ≠ []) :
    ∀ r : List String, ∃ (st' : PState) (f' : List Char) (r' : List String),
      st' ≠ .inQuoted ∧
      runLine (.startField, [], r) (joinComma (cells.map renderFieldChars)) =
        (st', f', r') ∧
      (String.mk f'.reverse :: r').reverse = r.reverse ++ cells := by
  induction cells with
  | nil => exact absurd rfl hne
  | cons c cs ih =>
      intro r
      cases cs with
      | nil =>
          rcases runLine_renderField c r with ⟨st', hst', hrun⟩
          refine ⟨st', c.data.reverse, r, hst', ?_, ?_⟩
          · simp only [List.map_cons, List.map_nil]
            rw [show joinComma [renderFieldChars c] = renderFieldChars c from rfl]
            exact hrun
          · simp
      | cons c2 cs2 =>
          rw [show joinComma ((c :: c2 :: cs2).map renderFieldChars) =
            renderFieldChars c ++ ',' :: joinComma ((c2 :: cs2).map renderFieldChars)
            from rfl]
          rcases runLine_renderField c r with ⟨st1, hst1, hrun1⟩
          rcases ih (by simp) (c :: r) with ⟨st2, f2, r2, hst2, hrun2, hrec2⟩
          refine ⟨st2, f2, r2, hst2, ?_, ?_⟩
          · rw [runLine_append, hrun1]
            show runLine (stepChar (st1, c.data.reverse, r) ',')
              (joinComma ((c2 :: cs2).map renderFieldChars)) = _
            rw [stepChar_comma st1 c.data.reverse r hst1]
            have : String.mk c.data.reverse.reverse = c := by
              simp
            rw [this]
            exact hrun2
          · rw [hrec2]
            simp

theorem parseRecordsAux_cons_step (line : String) (rest : List String)
    (st' : PState) (f' : List Char) (r' : List String)
    (hrun : runLine (.startField, [], []) line.data = (st', f', r'))
    (hst' : st' ≠ PState.inQuoted)
    (hne2 : ¬(st' = PState.startField ∧ f' = [] ∧ r' = [])) :
    parseRecordsAux none (line :: rest) =
      endRecord f' r' :: parseRecordsAux none rest := by
  rw [parseRecordsAux.eq_def]
  dsimp only
  rw [hrun]
  cases st' with
  | inQuoted => exact absurd rfl hst'
  | startField =>
      by_cases hf : f' = []
      · by_cases hr : r' = []
        · exact absurd ⟨rfl, hf, hr⟩ hne2
        · have hre : r'.isEmpty = false := by
            cases r' with
            | nil => exact absurd rfl hr
            | cons a t => rfl
          simp [hre]
      · have hfe : f'.isEmpty = false := by
          cases f' with
          | nil => exact absurd rfl hf
          | cons a t => rfl
        simp [hfe]
  | inField => simp
  | quoteInQuoted => simp

theorem parseRecordsAux_render (rows : List (List String))
    (h : ∀ cells ∈ rows, cells ≠ []) :
    parseRecordsAux none (rows.map (fun cells => String.mk (renderRowChars cells))) =
      rows := by
  induction rows with
  | nil => rfl
  | cons cells rest ih =>
      have hne : cells ≠ [] := h cells (List.mem_cons_self cells rest)
      have htail := fun cs hcs => h cs (List.mem_cons_of_mem cells hcs)
      rw [List.map_cons]
      by_cases hone : cells = [""]
      · subst hone
        rw [parseRecordsAux_cons_step (String.mk (renderRowChars [""])) _
          .quoteInQuoted [] [] rfl (by simp) (by rintro ⟨h1, -, -⟩; cases h1)]
        rw [ih htail]
        rfl
      · rcases runLine_joinComma cells hne [] with ⟨st', f', r', hst', hrun, hrec⟩
        simp only [List.reverse_nil, List.nil_append] at hrec
        have hroweq : (String.mk (renderRowChars cells)).data =
            joinComma (cells.map renderFieldChars) := by
          show renderRowChars cells = _
          unfold renderRowChars
          rw [if_neg hone]
        have hrun2 : runLine (.startField, [], [])
            (String.mk (renderRowChars cells)).data = (st', f', r') := by
          rw [hroweq]
          exact hrun
        have hne2 : ¬(st' = PState.startField ∧ f' = [] ∧ r' = []) := by
          rintro ⟨-, h2, h3⟩
          apply hone
          rw [← hrec, h2, h3]
          rfl
        rw [parseRecordsAux_cons_step _ _ st' f' r' hrun2 hst' hne2, ih htail]
        unfold endRecord
        rw [hrec]

/-! ## Round-trip machinery: assembling the loader on serializer output -/

theorem zip_self_map {β : Type} (l : List String) (g : String → β) :
    l.zip (l.map g) = l.map (fun a => (a, g a)) := by
  induction l with
  | nil => rfl
  | cons a t ih => simp [ih]

theorem filterMap_all_some {α β : Type} (p : α → Option β) (q : α → β) (l : List α)
    (h : ∀ a ∈ l, p a = some (q a)) : l.filterMap p = l.map q := by
  induction l with
  | nil => rfl
  | cons a t ih =>
      rw [List.filterMap_cons, h a (List.mem_cons_self a t), List.map_cons,
        ih (fun b hb => h b (List.mem_cons_of_mem a hb))]

theorem serialize_rows_data (items : List Item) (fields : List String) :
    (serialize_to_csv items fields true).data =
      (((fields :: items.map (rowCells fields)).map renderRowChars).map
        (fun r => r ++ ['\r', '\n'])).flatten := by
  unfold serialize_to_csv
  simp [List.map_map, Function.comp_def]

/-- C8 (amended): round trip under the hypotheses the counterexample
class forces.  For a nonempty duplicate-free field list whose names are
fixed by header normalization (already trimmed and lowercase) and contain
no line-break characters, and items in which every requested field is
present with a value whose rendering is non-empty and line-break free,
serializing with headers and loading back with the same field set
produces one record per item mapping each field to the trimmed rendering
of its original value (booleans rendered as `True`/`False` by `pyStr`). -/
theorem C8_amended (items : List Item) (fields : List String)
    (hnd : fields.Nodup) (hne : fields ≠ [])
    (hf : ∀ f ∈ fields, normalizeHeader f = f ∧ ∀ c ∈ f.data, isLineBreak c = false)
    (hit : ∀ it ∈ items, ∀ f ∈ fields, ∃ v, it.lookup f = some v ∧ pyStr v ≠ "" ∧
      ∀ c ∈ (pyStr v).data, isLineBreak c = false) :
    load_records_from_csv (serialize_to_csv items fields true) fields [] =
      .ok (items.map (fun it => fields.map (fun f =>
        (f, pyStrip (pyStr ((it.lookup f).getD .none)))))) := by
  have hcellsbf : ∀ cs ∈ (fields :: items.map (rowCells fields)),
      ∀ s ∈ cs, ∀ c ∈ s.data, isLineBreak c = false := by
    intro cs hcs s hs
    rcases (List.mem_cons).1 hcs with h1 | h1
    · subst h1
      exact (hf s hs).2
    · rcases (List.mem_map).1 h1 with ⟨it, hitm, hite⟩
      subst hite
      rcases (List.mem_map).1 hs with ⟨f, hfm, hfe⟩
      rcases hit it hitm f hfm with ⟨v, hv, _, hbf⟩
      rw [← hfe]
      simpa [hv] using hbf
  have hsplit : pySplitlines (serialize_to_csv items fields true) =
      (fields :: items.map (rowCells fields)).map
        (fun cs => String.mk (renderRowChars cs)) := by
    unfold pySplitlines
    rw [serialize_rows_data]
    rw [splitLines_flatten_rows ((fields :: items.map (rowCells fields)).map renderRowChars)
      (by
        intro r hr c hc
        rcases (List.mem_map).1 hr with ⟨cs, hcs, hcse⟩
        subst hcse
        exact renderRowChars_breakFree cs (hcellsbf cs hcs) c hc)]
    rw [List.map_map]
    rfl
  have hparse : parseRecords (pySplitlines (serialize_to_csv items fields true)) =
      fields :: items.map (rowCells fields) := by
    rw [hsplit]
    exact parseRecordsAux_render _ (by
      intro cs hcs
      rcases (List.mem_cons).1 hcs with h1 | h1
      · subst h1
        exact hne
      · rcases (List.mem_map).1 h1 with ⟨it, _, hite⟩
        subst hite
        intro hc
        apply hne
        unfold rowCells at hc
        exact List.map_eq_nil_iff.1 hc)
  have hnorm : fields.map normalizeHeader = fields := by
    have : fields.map normalizeHeader = fields.map id :=
      List.map_congr_left (fun f hfm => (hf f hfm).1)
    rw [this, List.map_id]
  have hreq : requiredOf fields [] = fields := by
    unfold requiredOf
    have : ∀ f ∈ fields, (!([] : List String).contains f) = true := by
      intro f _
      rfl
    rw [List.filter_eq_self.2 this]
  have hmiss : fields.filter (fun f => !fields.contains f) = [] := by
    apply (List.filter_eq_nil_iff).2
    intro f hfm
    simp [hfm]
  have hrowsfilter : (items.map (rowCells fields)).filter (fun r => !r.isEmpty) =
      items.map (rowCells fields) := by
    apply List.filter_eq_self.2
    intro r hr
    rcases (List.mem_map).1 hr with ⟨it, _, hite⟩
    subst hite
    have : rowCells fields it ≠ [] := by
      intro hc
      exact hne (List.map_eq_nil_iff.1 hc)
    simpa using this
  have hrows : processRows fields fields fields (items.map (rowCells fields)) 1 =
      .ok ((items.map (rowCells fields)).map
        (fun cells => (fields.zip cells).map (fun kv => (kv.1, pyStrip kv.2)))) := by
    apply processRows_ok_of
    intro cells hcells
    rcases (List.mem_map).1 hcells with ⟨it, hitm, hite⟩
    subst hite
    have hlen : (rowCells fields it).length = fields.length := by
      unfold rowCells
      rw [List.length_map]
    have hrest : (mkRowDict fields (rowCells fields it)).hasRest = false := by
      rw [mkRowDict_hasRest, hlen]
      simp
    have hent : (mkRowDict fields (rowCells fields it)).entries =
        fields.map (fun f => (f, some (pyStr ((it.lookup f).getD .none)))) := by
      rw [mkRowDict_entries_of_nodup fields _ hnd]
      unfold rowPairs
      rw [hlen, List.drop_length, List.map_nil, List.append_nil]
      rw [show rowCells fields it =
        fields.map (fun f => pyStr ((it.lookup f).getD .none)) from rfl]
      rw [zip_self_map, List.map_map]
      rfl
    have hchk : checkRequired fields (mkRowDict fields (rowCells fields it)).entries =
        .ok := by
      apply (checkRequired_ok_iff _ _).2
      intro f hfm
      refine ⟨some (pyStr ((it.lookup f).getD .none)), ?_, ?_⟩
      · rw [hent]
        rw [lookup_map_pair (fun f => some (pyStr ((it.lookup f).getD .none))) fields f]
        rw [if_pos hfm]
      · rcases hit it hitm f hfm with ⟨v, hv, hvne, _⟩
        apply (truthy_eq_true_iff _).2
        exact ⟨pyStr ((it.lookup f).getD .none), rfl, by simpa [hv] using hvne⟩
    have hstrip : stripRow fields (mkRowDict fields (rowCells fields it)).entries =
        .ok ((fields.zip (rowCells fields it)).map (fun kv => (kv.1, pyStrip kv.2))) := by
      rw [hent]
      rw [stripRow_ok_of fields _ (by
        intro kv hkv
        rcases (List.mem_map).1 hkv with ⟨f, _, hfe⟩
        subst hfe
        intro _
        exact ⟨pyStr ((it.lookup f).getD .none), rfl⟩)]
      congr 1
      rw [List.filterMap_map]
      rw [show rowCells fields it =
        fields.map (fun f => pyStr ((it.lookup f).getD .none)) from rfl]
      rw [zip_self_map, List.map_map]
      apply filterMap_all_some
        (q := fun f => (f, pyStrip (pyStr ((it.lookup f).getD .none))))
      intro f hfm
      show stripKeep fields (f, some (pyStr ((it.lookup f).getD .none))) = _
      unfold stripKeep
      simp only
      rw [if_pos hfm]
    exact processRow_ok_build fields fields fields (rowCells fields it) 1 _ hrest hchk hstrip
  unfold load_records_from_csv
  rw [hparse]
  dsimp only
  rw [hnorm, hreq, hmiss, hrowsfilter]
  simp only [List.isEmpty_nil, if_true]
  rw [hrows]
  congr 1
  rw [List.map_map]
  apply List.map_congr_left
  intro it _
  show (fields.zip (rowCells fields it)).map (fun kv => (kv.1, pyStrip kv.2)) = _
  rw [show rowCells fields it =
    fields.map (fun f => pyStr ((it.lookup f).getD .none)) from rfl]
  rw [zip_self_map, List.map_map]
  rfl

/-- Witness for C8: a concrete two-item round trip with a string and a
boolean value. -/
theorem C8_witness :
    load_records_from_csv
        (serialize_to_csv [[("name", PyVal.str " A ")], [("name", PyVal.bool true)]]
          ["name"] true) ["name"] [] =
      .ok [[("name", "A")], [("name", "True")]] := by
  have h := C8_amended [[("name", PyVal.str " A ")], [("name", PyVal.bool true)]]
    ["name"] (by decide) (by decide)
    (by
      intro f hfm
      have : f = "name" := by simpa using hfm
      subst this
      exact ⟨by decide, by decide⟩)
    (by
      intro it hitm f hfm
      have hfn : f = "name" := by simpa using hfm
      subst hfn
      rcases (List.mem_cons).1 hitm with h1 | h1
      · subst h1
        exact ⟨PyVal.str " A ", rfl, by decide, by decide⟩
      · have : it = [("name", PyVal.bool true)] := by simpa using h1
        subst this
        exact ⟨PyVal.bool true, rfl, by decide, by decide⟩)
  rw [h]
  rfl

end Registrar
